import Mathlib

/-!
Verification of the MCQ Normalization Engine of `app.py` against its
specification.

The engine is the three helper functions of `app.py`:

* `try_load_json` (lines 203-215): try to parse the whole text as JSON,
  else the substring from the first `[` to the last `]`, else `None`;
* `parse_plain_mcqs` (lines 217-284): regex-based freeform parser;
* `parse_mcqs` (lines 286-307): dispatcher (the spec's `normalize`).

Texts are modelled as `List Char`.  Python's `json.loads` is an external
library call; it is modelled as an explicit parameter
`loads : List Char → Option PyVal` (`none` = the call raises), so that
every theorem about `try_load_json` / `parse_mcqs` is quantified over the
behaviour of the JSON decoder.  JSON values are modelled by `PyVal`, which
also stands for the Python values stored in the produced records.

The regexes of `parse_plain_mcqs` are embedded as deterministic scanning
functions.  Each one was derived from the exact backtracking behaviour of
Python's `re` module on its pattern; the correspondence is documented at
each definition.  Character classes are modelled on Python's definitions:
`\s` / `str.strip` use Python's whitespace set (`isSp`), `str.splitlines`
uses Python's line-break set (`isBreak`), `\d` is modelled as the ASCII
digits (non-ASCII Unicode digits are outside the modelled alphabet, as are
Unicode simple case foldings beyond ASCII for the `re.I` flag).
-/

/-- Abbreviation: the character list of a string literal. -/
def asL (s : String) : List Char := s.data

/-- Python's whitespace set: the characters `c` with `c.isspace()` true,
equivalently the characters matched by the regex class `\s` on `str`
patterns (`0x09`-`0x0D`, `0x1C`-`0x1F`, space, `0x85`, `0xA0`, and the
Unicode space separators). -/
def isSp (c : Char) : Bool :=
  let n := c.toNat
  n == 0x20 || (0x09 <= n && n <= 0x0D) || (0x1C <= n && n <= 0x1F) ||
  n == 0x85 || n == 0xA0 || n == 0x1680 || (0x2000 <= n && n <= 0x200A) ||
  n == 0x2028 || n == 0x2029 || n == 0x202F || n == 0x205F || n == 0x3000

/-- Python's `str.splitlines` line-break set (`\n`, `\v`, `\f`, `\r`,
`0x1C`-`0x1E`, `0x85`, and the Unicode line/paragraph separators). -/
def isBreak (c : Char) : Bool :=
  let n := c.toNat
  (0x0A <= n && n <= 0x0D) || (0x1C <= n && n <= 0x1E) ||
  n == 0x85 || n == 0x2028 || n == 0x2029

/-- The regex class `\d` restricted to the modelled (ASCII) alphabet. -/
def isDig (c : Char) : Bool := 0x30 <= c.toNat && c.toNat <= 0x39

/-- The regex class `[a-dA-D]` of the option and answer patterns. -/
def isOptLetter (c : Char) : Bool :=
  c == 'a' || c == 'b' || c == 'c' || c == 'd' ||
  c == 'A' || c == 'B' || c == 'C' || c == 'D'

/-- The regex class `[\.\)]` of the option patterns. -/
def isDotParen (c : Char) : Bool := c == '.' || c == ')'

/-- The regex class `[:\s\-]` of the answer/explanation patterns. -/
def isSepC (c : Char) : Bool := c == ':' || c == '-' || isSp c

/-- Python's `str.strip()` on the modelled whitespace set. -/
def pyStrip (l : List Char) : List Char :=
  ((l.dropWhile isSp).reverse.dropWhile isSp).reverse

/-- Python's `text.replace('\r\n', '\n')`: left-to-right replacement of
non-overlapping occurrences. -/
def replaceCRLF : List Char → List Char
  | '\r' :: '\n' :: r => '\n' :: replaceCRLF r
  | c :: r => c :: replaceCRLF r
  | [] => []

/-- Worker for `pySplitlines`: accumulates the current line (reversed).
A `'\r'` immediately followed by `'\n'` counts as a single break; a break
at the very end of the text does not open a new (empty) line. -/
def slGo (acc : List Char) : List Char → List (List Char)
  | [] => [acc.reverse]
  | '\r' :: '\n' :: r =>
    acc.reverse :: (match r with | [] => [] | _ :: _ => slGo [] r)
  | c :: r =>
    if isBreak c then
      acc.reverse :: (match r with | [] => [] | _ :: _ => slGo [] r)
    else slGo (c :: acc) r

/-- Python's `str.splitlines()` (without keepends). -/
def pySplitlines : List Char → List (List Char)
  | [] => []
  | c :: r => slGo [] (c :: r)

/-- JSON values / generic Python values, as produced by the JSON decoder
and stored in the records built by `parse_mcqs`.  Numbers are modelled as
integers; the claims under verification do not depend on float values. -/
inductive PyVal where
  | pnull : PyVal
  | pbool : Bool → PyVal
  | pnum : Int → PyVal
  | pstr : List Char → PyVal
  | plist : List PyVal → PyVal
  | pdict : List (List Char × PyVal) → PyVal

open PyVal

/-- Python truthiness (`if v:`) of the modelled values. -/
def truthy : PyVal → Bool
  | pnull => false
  | pbool b => b
  | pnum n => n != 0
  | pstr s => !s.isEmpty
  | plist l => !l.isEmpty
  | pdict d => !d.isEmpty

/-- Truthiness of an optional value; `none` models Python's `None`. -/
def truthyO : Option PyVal → Bool
  | none => false
  | some v => truthy v

/-- `dict.get(key)`: `none` models the key being absent. -/
def dictGet (d : List (List Char × PyVal)) (k : List Char) : Option PyVal :=
  (d.find? (fun p => p.1 == k)).map (fun p => p.2)

/-- The canonical record built by `parse_mcqs` / `parse_plain_mcqs`: a
Python dict with keys question/options/answer/explanation.  The freeform
parser always stores strings; the structured normalizer stores whatever
values the JSON array supplied. -/
structure Rec where
  question : PyVal
  options : List PyVal
  answer : PyVal
  explanation : PyVal

/-- The all-empty record (question `""`, four empty options, answer `""`,
explanation `""`). -/
def blankRec : Rec :=
  ⟨pstr [], List.replicate 4 (pstr []), pstr [], pstr []⟩

/-- `try_load_json` (app.py lines 203-215): try `loads` on the whole text;
on failure, if the text has a first `'['` at index `s` and a last `']'` at
index `e` with `e > s`, try `loads` on `text[s:e+1]`; otherwise `none`.
`loads t = none` models `json.loads` raising. -/
def try_load_json (loads : List Char → Option PyVal) (t : List Char) :
    Option PyVal :=
  match loads t with
  | some v => some v
  | none =>
    match t.findIdx? (fun c => c == '['), (t.reverse.findIdx? (fun c => c == ']')).map (fun j => t.length - 1 - j) with
    | some s, some e =>
      if s < e then loads ((t.drop s).take (e + 1 - s)) else none
    | _, _ => none

/-! ### The numbered-block segmentation regex

`re.findall(r'^\s*\d+\.\s*(.*?)(?=^\s*\d+\.|\Z)', text, re.M | re.S)`.

A match can only start at a line start (`^` with `re.M`: the string start
or a position right after a `'\n'`).  There `\s*` greedily consumes
whitespace (possibly across several lines), `\d+\.` requires a digit run
followed by a dot (deterministic, as the three classes are disjoint), then
`\s*` again greedily consumes whitespace, and the lazy group `(.*?)` (with
`re.S`) extends until the first position that is the end of the text or a
line start from which `\s*\d+\.` matches.  Scanning resumes at that
position. -/

/-- Core of the marker test `\s*\d+\.` from a given position: skip
whitespace, require a nonempty ASCII digit run followed by `'.'`, and
return the suffix after the dot. -/
def markerSplit (s : List Char) : Option (List Char) :=
  if ((s.dropWhile isSp).head?.any isDig) &&
      (((s.dropWhile isSp).dropWhile isDig).head?.any (fun c => c == '.')) then
    some (((s.dropWhile isSp).dropWhile isDig).tail)
  else none

/-- The lazy capture of the block pattern: consume characters until the
end of the text or a line start satisfying the lookahead `^\s*\d+\.`.
`atLS` records whether the current position is a line start (the
previously consumed character was `'\n'`, or the capture began at a line
start).  Returns the capture and the remaining suffix. -/
def captureNum (atLS : Bool) : List Char → List Char × List Char
  | [] => ([], [])
  | c :: r =>
    if atLS && (markerSplit (c :: r)).isSome then ([], c :: r)
    else
      let p := captureNum (c == '\n') r
      (c :: p.1, p.2)

/-- Scanner of the block pattern: at each position, if the position is a
line start and `\s*\d+\.` matches there, emit the lazy capture and resume
at its end (which is again a line start or the end of the text); otherwise
advance one character.  `fuel` bounds the recursion; every step strictly
shrinks the suffix, so `length + 1` fuel is exact. -/
def segGo : Nat → Bool → List Char → List (List Char)
  | 0, _, _ => []
  | _ + 1, _, [] => []
  | fuel + 1, atLS, c :: r =>
    match if atLS then markerSplit (c :: r) else none with
    | some afterDot =>
      let ws := afterDot.takeWhile isSp
      let body := afterDot.dropWhile isSp
      let p := captureNum (ws.getLast? == some '\n') body
      p.1 :: segGo fuel true p.2
    | none => segGo fuel (c == '\n') r

/-- `re.findall` of the numbered-block pattern over the whole text. -/
def segmentNumbered (t : List Char) : List (List Char) :=
  segGo (t.length + 1) true t

/-! ### The paragraph split

`re.split(r'\n\s*\n', text)`: the separator is a `'\n'`, then a greedy
whitespace run that must end with (backtrack to) a further `'\n'`.  So a
`'\n'` starts a separator iff the whitespace run following it contains
another `'\n'`, and the separator extends to the last `'\n'` of that
run. -/

/-- Index of the last `'\n'` in a list (used on a whitespace run). -/
def lastNl (l : List Char) : Option Nat :=
  (l.reverse.findIdx? (fun c => c == '\n')).map (fun j => l.length - 1 - j)

/-- Worker for `splitPar`; `acc` is the current piece, reversed. -/
def parGo : Nat → List Char → List Char → List (List Char)
  | 0, acc, _ => [acc.reverse]
  | _ + 1, acc, [] => [acc.reverse]
  | fuel + 1, acc, '\n' :: r =>
    match lastNl (r.takeWhile isSp) with
    | some k => acc.reverse :: parGo fuel [] (r.drop (k + 1))
    | none => parGo fuel ('\n' :: acc) r
  | fuel + 1, acc, c :: r => parGo fuel (c :: acc) r

/-- `re.split(r'\n\s*\n', text)`. -/
def splitPar (t : List Char) : List (List Char) :=
  parGo (t.length + 1) [] t

/-! ### The option probe

`opt_pattern = (?s)(?:^|[\n\r])\s*([a-dA-D])[\.\)]\s*(.*?)
               (?=(?:\n\s*[a-dA-D][\.\)]\s*)|\Z)` with `re.M`.

A match starts either at a line start (`^`, zero-width) or by consuming
one `'\n'` or `'\r'`; in both cases the match start index is the current
scan position.  Then `\s*` greedily skips whitespace (across lines), a
letter `a`-`d` and a dot or closing paren follow, `\s*` again greedily
skips whitespace, and the lazy capture extends until the end of the block
or a literal `'\n'` followed by `\s*[a-dA-D][\.\)]`.  `finditer` resumes
scanning at the match end (the lookahead position). -/

/-- The option lookahead `(?=\n\s*[a-dA-D][\.\)]\s*)` at a position. -/
def lookOpt : List Char → Bool
  | '\n' :: r =>
    match r.dropWhile isSp with
    | x :: y :: _ => isOptLetter x && isDotParen y
    | _ => false
  | _ => false

/-- The lazy capture of the option pattern: consume until the end of the
block or the option lookahead holds. -/
def captureOpt : List Char → List Char × List Char
  | [] => ([], [])
  | c :: r =>
    if lookOpt (c :: r) then ([], c :: r)
    else
      let p := captureOpt r
      (c :: p.1, p.2)

/-- Attempt an option match at the current position: `atLS` is the `^`
test; otherwise one `'\n'`/`'\r'` is consumed.  On success returns the
letter group, the capture group and the suffix at the match end. -/
def optTryAt (atLS : Bool) (s : List Char) :
    Option (Char × List Char × List Char) :=
  let body? : Option (List Char) :=
    if atLS then some s
    else
      match s with
      | '\n' :: r => some r
      | '\r' :: r => some r
      | _ => none
  match body? with
  | none => none
  | some body =>
    match body.dropWhile isSp with
    | x :: y :: rest =>
      if isOptLetter x && isDotParen y then
        let p := captureOpt (rest.dropWhile isSp)
        some (x, p.1, p.2)
      else none
    | _ => none

/-- Scanner of the option pattern: returns the list of matches as
(match start index, letter group, capture group).  After a match the scan
resumes at the match end; the flag passed there is irrelevant because the
match end is either the block end or a position whose head is `'\n'`
(handled by the `[\n\r]` branch), so `false` is passed. -/
def optGo : Nat → Nat → Bool → List Char → List (Nat × Char × List Char)
  | 0, _, _, _ => []
  | _ + 1, _, _, [] => []
  | fuel + 1, pos, atLS, c :: r =>
    match optTryAt atLS (c :: r) with
    | some (x, cap, rest) =>
      (pos, x, cap) :: optGo fuel (pos + ((c :: r).length - rest.length)) false rest
    | none => optGo fuel (pos + 1) (c == '\n') r

/-- `opt_pattern.finditer(block)` (also giving `opt_pattern.search`: the
head of this list is the first match). -/
def optMatches (b : List Char) : List (Nat × Char × List Char) :=
  optGo (b.length + 1) 0 true b

/-! ### The answer and explanation probes

`re.search(r'(?mi)^\s*Answer[:\s\-]*([a-dA-D])(?:[\)\.]?)\s*(.*)$', block)`
and `re.search(r'(?mi)^\s*Explanation[:\s\-]*(.*)$', block)`.

A match starts at a line start; `\s*` greedily skips whitespace (possibly
across several lines), the keyword is compared case-insensitively, then
`[:\s\-]*` greedily skips separator characters (again possibly across
lines).  For the answer pattern a letter `a`-`d` must follow, then an
optional `')'` or `'.'` is consumed, `\s*` greedily skips whitespace, and
`(.*)$` captures to the end of the line then reached (`.` does not match
`'\n'`; `$` then matches).  All the greedy runs are forced, because the
character that must follow each run is never a member of the run's class.
`re.search` returns the leftmost match; scanning position order coincides
with the order of the qualifying keyword occurrences. -/

/-- Case-insensitive keyword test: `ciPre w s` holds when the first
`w.length` characters of `s` lower to `w` (ASCII folding; `w` is given in
lowercase). -/
def ciPre : List Char → List Char → Bool
  | [], _ => true
  | _ :: _, [] => false
  | a :: w, c :: s => (c.toLower == a) && ciPre w s

/-- Attempt the answer pattern at a position (must be a line start).
Returns the letter group and the raw `(.*)` capture. -/
def ansTryAt (atLS : Bool) (s : List Char) : Option (Char × List Char) :=
  if atLS then
    let r1 := s.dropWhile isSp
    if ciPre (asL "answer") r1 then
      let r3 := (r1.drop 6).dropWhile isSepC
      match r3 with
      | x :: r4 =>
        if isOptLetter x then
          let r5 := match r4 with
            | y :: r4t => if isDotParen y then r4t else y :: r4t
            | [] => []
          let r6 := r5.dropWhile isSp
          some (x, r6.takeWhile (fun c => c != '\n'))
        else none
      | [] => none
    else none
  else none

/-- Scanner for the answer pattern (`re.search`): first match wins. -/
def ansGo (atLS : Bool) : List Char → Option (Char × List Char)
  | [] => none
  | c :: r =>
    match ansTryAt atLS (c :: r) with
    | some res => some res
    | none => ansGo (c == '\n') r

/-- Attempt the explanation pattern at a position (must be a line start).
Returns the raw `(.*)` capture. -/
def expTryAt (atLS : Bool) (s : List Char) : Option (List Char) :=
  if atLS then
    let r1 := s.dropWhile isSp
    if ciPre (asL "explanation") r1 then
      let r3 := (r1.drop 11).dropWhile isSepC
      some (r3.takeWhile (fun c => c != '\n'))
    else none
  else none

/-- Scanner for the explanation pattern (`re.search`). -/
def expGo (atLS : Bool) : List Char → Option (List Char)
  | [] => none
  | c :: r =>
    match expTryAt atLS (c :: r) with
    | some res => some res
    | none => expGo (c == '\n') r

/-! ### Per-block field extraction (the body of the `for block` loop) -/

/-- Slot index of an option letter: `ord(letter.lower()) - ord('a')`. -/
def letterIdx (c : Char) : Nat := c.toLower.toNat - 'a'.toNat

/-- `options_list` after the main option probe (app.py lines 248-252):
start from four empty slots; each match `(letter, content)` with
`0 <= idx < 4` overwrites slot `idx` with the stripped content. -/
def mainOptionSlots (b : List Char) : List (List Char) :=
  (optMatches b).foldl
    (fun acc m =>
      let idx := letterIdx m.2.1
      if idx < 4 then acc.set idx (pyStrip m.2.2) else acc)
    (List.replicate 4 [])

/-- The non-empty stripped lines of a block
(`[ln.strip() for ln in block.splitlines() if ln.strip()]`). -/
def neLines (b : List Char) : List (List Char) :=
  ((pySplitlines b).map pyStrip).filter (fun l => !l.isEmpty)

/-- The fallback single-line option test
`re.match(r'^([a-dA-D])[\.\)]\s*(.*)', ln)` on a stripped line, returning
the slot index and the stripped remainder. -/
def flTry : List Char → Option (Nat × List Char)
  | x :: y :: r =>
    if isOptLetter x && isDotParen y then
      some (letterIdx x, pyStrip (r.dropWhile isSp))
    else none
  | _ => none

/-- Apply the fallback single-line scan (app.py lines 255-261) to a slot
list: fold over the given lines, setting the slot of each matching line. -/
def fallbackApply (lines : List (List Char)) (ol : List (List Char)) :
    List (List Char) :=
  lines.foldl
    (fun acc ln =>
      match flTry ln with
      | some p => if p.1 < 4 then acc.set p.1 p.2 else acc
      | none => acc)
    ol

/-- `any(options_list)`: some slot is a non-empty string. -/
def anySlot (ol : List (List Char)) : Bool := ol.any (fun s => !s.isEmpty)

/-- The final `options_list` of a block: the main probe's slots, or, when
all of those are empty, the result of the fallback scan over the non-empty
stripped lines after the first (`lines[1:]`). -/
def blockOptions (b : List Char) : List (List Char) :=
  if anySlot (mainOptionSlots b) then mainOptionSlots b
  else fallbackApply (neLines b).tail (mainOptionSlots b)

/-- `q_text` (app.py line 243): the stripped prefix of the block before
the first option match, or the stripped first line if there is none. -/
def blockQuestion (b : List Char) : List Char :=
  match (optMatches b).head? with
  | some m => pyStrip (b.take m.1)
  | none => pyStrip ((pySplitlines b).headD [])

/-- `answer_text` (app.py lines 263-273) from the answer probe result and
the final slot list. -/
def ansCompose (res : Option (Char × List Char)) (ol : List (List Char)) :
    List Char :=
  match res with
  | none => []
  | some (x, extraRaw) =>
    let al := x.toLower
    let extra := pyStrip extraRaw
    let idx := al.toNat - 'a'.toNat
    if !extra.isEmpty then al :: ')' :: ' ' :: extra
    else
      let optText := if idx < 4 then ol.getD idx [] else []
      if !optText.isEmpty then al :: ')' :: ' ' :: optText
      else [al]

/-- Build the canonical record of one (stripped, non-empty) block. -/
def buildRecord (b : List Char) : Rec :=
  { question := pstr (blockQuestion b)
    options := (blockOptions b).map pstr
    answer := pstr (ansCompose (ansGo true b) (blockOptions b))
    explanation := pstr (match expGo true b with
      | some e => pyStrip e
      | none => []) }

/-- The block list of the (normalized, stripped) text: the numbered-block
segmentation, or, when that finds no match, the non-empty stripped
blank-line paragraphs (app.py lines 223-228). -/
def blocksOf (t : List Char) : List (List Char) :=
  if (segmentNumbered t).isEmpty then
    ((splitPar t).map pyStrip).filter (fun b => !b.isEmpty)
  else segmentNumbered t

/-- `parse_plain_mcqs` (app.py lines 217-284): normalize line endings and
strip; empty text gives no records; segment into numbered blocks, falling
back to blank-line paragraphs when no numbered marker matches; each block
is stripped, empty blocks are skipped, and every remaining block yields
exactly one record. -/
def parse_plain_mcqs (raw : List Char) : List Rec :=
  if (pyStrip (replaceCRLF raw)).isEmpty then []
  else
    (blocksOf (pyStrip (replaceCRLF raw))).filterMap (fun b =>
      if (pyStrip b).isEmpty then none else some (buildRecord (pyStrip b)))

/-- `item.get(key) if isinstance(item, dict) else dflt`. -/
def dget (item : PyVal) (k : List Char) (dflt : Option PyVal) : Option PyVal :=
  match item with
  | pdict d => dictGet d k
  | _ => dflt

/-- `v if v else ""`: a falsy or absent value becomes the empty string. -/
def pick : Option PyVal → PyVal
  | some v => if truthy v then v else pstr []
  | none => pstr []

/-- Force the `options` value to a list of length 4 (app.py lines
295-298): a list is padded with empty strings when shorter than 4 and
truncated when longer; any non-list value becomes four empty strings. -/
def fixOpts : Option PyVal → List PyVal
  | some (plist l) =>
    if l.length < 4 then l ++ List.replicate (4 - l.length) (pstr [])
    else l.take 4
  | _ => List.replicate 4 (pstr [])

/-- Normalization of one element of a structured array (the body of the
`for item in loaded` loop, app.py lines 290-304).  A non-dict element
contributes `None` for `question`/`options` and `""` for
`answer`/`explanation`; a dict contributes its four keys; `options` is
forced to length 4; falsy values are replaced by `""`. -/
def normItem (item : PyVal) : Rec :=
  { question := pick (dget item (asL "question") none)
    options := fixOpts (dget item (asL "options") none)
    answer := pick (dget item (asL "answer") (some (pstr [])))
    explanation := pick (dget item (asL "explanation") (some (pstr []))) }

/-- `parse_mcqs` (app.py lines 286-307), the spec's top-level `normalize`:
if `try_load_json` yields a list, map `normItem` over its elements;
otherwise run the freeform parser. -/
def parse_mcqs (loads : List Char → Option PyVal) (t : List Char) :
    List Rec :=
  match try_load_json loads t with
  | some (plist l) => l.map normItem
  | _ => parse_plain_mcqs t

/-! ### Additional definitions used by the claims -/

/-- The freeform textual shape of the spec's round-trip property
(spec section 8): `"1. <question>\na) <opt0>\nb) <opt1>\nc) <opt2>\nd) <opt3>\nAnswer: <answer>\nExplanation: <explanation>"`,
where the `answer` field is expected in its composed shape
`"<label>) <text>"`.  This definition follows the specification's words
(it is the input to `normalize`, not code of the repository). -/
def serializeFreeform (q o0 o1 o2 o3 ans ex : List Char) : List Char :=
  asL "1. " ++ q ++ asL "\na) " ++ o0 ++ asL "\nb) " ++ o1 ++
  asL "\nc) " ++ o2 ++ asL "\nd) " ++ o3 ++
  asL "\nAnswer: " ++ ans ++ asL "\nExplanation: " ++ ex

/-- Does the first line of the text match the numbered-question marker
`\s*\d+\.` (whitespace, digits, dot, all within the line)?  Expressed
through `markerSplit` applied to the first line. -/
def markerLineHead (t : List Char) : Bool :=
  (markerSplit (t.takeWhile (fun c => c != '\n'))).isSome

/-- Drop the first line together with its terminating `'\n'`; `none` when
the text has no `'\n'`. -/
def dropNl (t : List Char) : Option (List Char) :=
  match t.dropWhile (fun c => c != '\n') with
  | _ :: r => some r
  | [] => none

/-- Worker for `dtml`. -/
def dtmlGo : Nat → List Char → Option (List Char)
  | 0, _ => none
  | fuel + 1, t =>
    if markerLineHead t then some t
    else
      match dropNl t with
      | some r => dtmlGo fuel r
      | none => none

/-- The suffix of the text that starts at its first marker line (the
first line whose first non-whitespace content is a digit run followed by
a dot), or `none` when no line qualifies.  The fuel `length + 1` is
sufficient because each step removes at least one character. -/
def dtml (t : List Char) : Option (List Char) :=
  dtmlGo (t.length + 1) t

/-- `s` is a suffix of `t` that sits at a line start: either all of `t`,
or immediately preceded by a `'\n'`. -/
def LSsuf (t s : List Char) : Prop :=
  t = s ∨ ∃ p, p ++ '\n' :: s = t

/-! ## Supporting lemmas -/

/-- Folding option matches over a slot list never changes its length. -/
theorem mainFold_length (ms : List (Nat × Char × List Char)) :
    ∀ acc : List (List Char),
      (ms.foldl
        (fun acc m =>
          let idx := letterIdx m.2.1
          if idx < 4 then acc.set idx (pyStrip m.2.2) else acc)
        acc).length = acc.length := by
  induction ms with
  | nil => intro acc; rfl
  | cons m rest ih =>
    intro acc
    simp only [List.foldl_cons]
    rw [ih]
    split <;> simp [List.length_set]

/-- The main option probe always yields exactly four slots. -/
theorem mainOptionSlots_length (b : List Char) :
    (mainOptionSlots b).length = 4 := by
  unfold mainOptionSlots
  rw [mainFold_length]
  simp

/-- The fallback scan never changes the number of slots. -/
theorem fallbackApply_length (lines : List (List Char)) :
    ∀ ol : List (List Char), (fallbackApply lines ol).length = ol.length := by
  induction lines with
  | nil => intro ol; rfl
  | cons ln rest ih =>
    intro ol
    unfold fallbackApply at ih ⊢
    simp only [List.foldl_cons]
    rw [ih]
    rcases flTry ln with _ | p
    · rfl
    · simp only []
      split <;> simp [List.length_set]

/-- The final slot list of any block has exactly four entries. -/
theorem blockOptions_length (b : List Char) :
    (blockOptions b).length = 4 := by
  unfold blockOptions
  split
  · exact mainOptionSlots_length b
  · rw [fallbackApply_length]
    exact mainOptionSlots_length b

/-- Records built from freeform blocks carry exactly four options. -/
theorem buildRecord_options_length (b : List Char) :
    (buildRecord b).options.length = 4 := by
  unfold buildRecord
  simp [blockOptions_length]

/-- Records built by the structured-array normalizer carry exactly four
options: a list value is padded with empty strings when shorter than 4 and
truncated when longer; any other value is replaced by four empties. -/
theorem normItem_options_length (item : PyVal) :
    (normItem item).options.length = 4 := by
  show (fixOpts (dget item (asL "options") none)).length = 4
  rcases h : dget item (asL "options") none with _ | v
  · rfl
  · rcases v <;> simp only [fixOpts]
    case plist l =>
      split
      · simp
        omega
      · simp
        omega
    all_goals simp

/-- Every record of the freeform parser has options of length 4. -/
theorem parse_plain_options_length (raw : List Char) (r : Rec)
    (h : r ∈ parse_plain_mcqs raw) : r.options.length = 4 := by
  unfold parse_plain_mcqs at h
  split at h
  · simp at h
  · rcases List.mem_filterMap.mp h with ⟨b, _, hb⟩
    split at hb
    · simp at hb
    · simp only [Option.some.injEq] at hb
      rw [← hb]
      exact buildRecord_options_length _

/-! ## Claim C1 -/

/-- Claim C1: when the format detector parses the input into a structured
array, the top-level `parse_mcqs` returns exactly one canonical record per
array element, in source order, by mapping the element normalizer over the
array; a non-mapping element yields the all-empty record; the freeform
path never contributes (the result is the map, whatever
`parse_plain_mcqs` would return, even when every record is blank). -/
theorem c1_structured_exclusive (loads : List Char → Option PyVal)
    (t : List Char) (l : List PyVal)
    (h : try_load_json loads t = some (plist l)) :
    parse_mcqs loads t = l.map normItem ∧
    (parse_mcqs loads t).length = l.length ∧
    (∀ item ∈ l, (∀ d, item ≠ pdict d) → normItem item = blankRec) := by
  have h1 : parse_mcqs loads t = l.map normItem := by
    unfold parse_mcqs
    rw [h]
  refine ⟨h1, by rw [h1]; simp, ?_⟩
  intro item _ hnd
  rcases item with _ | _ | _ | _ | _ | d
  case pdict => exact absurd rfl (hnd d)
  all_goals rfl

/-- Witness for C1: a detector returning a two-element array (a number
and an empty mapping) produces exactly the two blank records, even though
the raw text is non-empty freeform. -/
theorem c1_witness :
    parse_mcqs (fun _ => some (plist [pnum 0, pdict []])) (asL "x") =
      [blankRec, blankRec] := by
  have h := c1_structured_exclusive (fun _ => some (plist [pnum 0, pdict []]))
    (asL "x") [pnum 0, pdict []] rfl
  exact h.1.trans rfl

/-! ## Claim C4 -/

/-- Claim C4: the top-level `parse_mcqs` is total (it is a total Lean
function returning a record list for every input), and on the empty
string and on a blank string it returns the empty list, provided the JSON
decoder fails on those strings (as Python's `json.loads` does). -/
theorem c4_normalize_total (loads : List Char → Option PyVal)
    (h1 : loads (asL "") = none) (h2 : loads (asL "   ") = none) :
    parse_mcqs loads (asL "") = [] ∧ parse_mcqs loads (asL "   ") = [] ∧
    ∀ t : List Char, ∃ rs : List Rec, parse_mcqs loads t = rs := by
  have e1 : try_load_json loads (asL "") = none := by
    unfold try_load_json
    rw [h1]
    rfl
  have e2 : try_load_json loads (asL "   ") = none := by
    unfold try_load_json
    rw [h2]
    rfl
  refine ⟨?_, ?_, fun t => ⟨_, rfl⟩⟩
  · unfold parse_mcqs
    rw [e1]
    rfl
  · unfold parse_mcqs
    rw [e2]
    rfl

/-- Witness for C4 with a decoder that always fails. -/
theorem c4_witness :
    parse_mcqs (fun _ => none) (asL "") = [] ∧
    parse_mcqs (fun _ => none) (asL "   ") = [] :=
  ⟨(c4_normalize_total (fun _ => none) rfl rfl).1,
   (c4_normalize_total (fun _ => none) rfl rfl).2.1⟩

/-! ## Claim C5 -/

/-- Claim C5: every record produced by `parse_mcqs`, on the structured
path (padding or truncating) as on the freeform path, has exactly four
options. -/
theorem c5_options_always_four (loads : List Char → Option PyVal)
    (t : List Char) (r : Rec) (h : r ∈ parse_mcqs loads t) :
    r.options.length = 4 := by
  unfold parse_mcqs at h
  rcases htl : try_load_json loads t with _ | v
  · rw [htl] at h
    exact parse_plain_options_length t r h
  · rw [htl] at h
    rcases v with _ | _ | _ | _ | l | _
    case plist =>
      simp only [] at h
      rcases List.mem_map.mp h with ⟨item, _, hi⟩
      rw [← hi]
      exact normItem_options_length item
    all_goals exact parse_plain_options_length t r h

/-- Witness for C5 at a concrete element with a 2-element option list
(padded to four slots). -/
theorem c5_witness :
    (Rec.options (normItem (pdict [(asL "options",
        plist [pstr (asL "x"), pstr (asL "y")])]))).length = 4 :=
  c5_options_always_four
    (fun _ => some (plist [pdict [(asL "options",
      plist [pstr (asL "x"), pstr (asL "y")])]]))
    [] _ (List.mem_singleton_self _)

/-! ## Claim C7 -/

/-- Claim C7: `try_load_json` never raises (it is a total Lean function
into `Option`): if the decoder succeeds on the whole text that value is
returned; if it fails and the text has a first `'['` at `s` and a last
`']'` at `e` with `e > s`, the result is whatever the decoder gives on
`text[s:e+1]` (possibly the failure sentinel); in every other failure
case the result is the failure sentinel `none`. -/
theorem c7_try_load_json_spec (loads : List Char → Option PyVal)
    (t : List Char) :
    (∀ v, loads t = some v → try_load_json loads t = some v) ∧
    (∀ s e, loads t = none →
      t.findIdx? (fun c => c == '[') = some s →
      (t.reverse.findIdx? (fun c => c == ']')).map
        (fun j => t.length - 1 - j) = some e →
      s < e →
      try_load_json loads t = loads ((t.drop s).take (e + 1 - s))) ∧
    (∀ s e, loads t = none →
      t.findIdx? (fun c => c == '[') = some s →
      (t.reverse.findIdx? (fun c => c == ']')).map
        (fun j => t.length - 1 - j) = some e →
      ¬ s < e → try_load_json loads t = none) ∧
    (loads t = none → t.findIdx? (fun c => c == '[') = none →
      try_load_json loads t = none) ∧
    (loads t = none → t.reverse.findIdx? (fun c => c == ']') = none →
      try_load_json loads t = none) := by
  refine ⟨?_, ?_, ?_, ?_, ?_⟩
  · intro v hv
    unfold try_load_json
    rw [hv]
  · intro s e hn hs he hlt
    unfold try_load_json
    rw [hn, hs, he]
    simp [hlt]
  · intro s e hn hs he hge
    unfold try_load_json
    rw [hn, hs, he]
    simp [hge]
  · intro hn hs
    unfold try_load_json
    rw [hn, hs]
  · intro hn hr
    unfold try_load_json
    rw [hn, hr]
    rcases t.findIdx? (fun c => c == '[') with _ | s <;> rfl

/-- Witness for C7: a decoder that only accepts the literal text
`"[1]"`, applied to `"x[1] y"`: the whole text fails, the bracket
substring succeeds. -/
theorem c7_witness :
    try_load_json
      (fun l => if l == asL "[1]" then some (plist [pnum 1]) else none)
      (asL "x[1] y") = some (plist [pnum 1]) :=
  ((c7_try_load_json_spec
      (fun l => if l == asL "[1]" then some (plist [pnum 1]) else none)
      (asL "x[1] y")).2.1 1 3 rfl rfl rfl (by decide)).trans rfl

/-! ## Claim C6 -/

/-- A successful answer-probe attempt always returns a letter of the
class `[a-dA-D]`. -/
theorem ansTryAt_letter (atLS : Bool) (s : List Char) (x : Char)
    (e : List Char) (h : ansTryAt atLS s = some (x, e)) :
    isOptLetter x = true := by
  unfold ansTryAt at h
  split at h
  · dsimp only at h
    split at h
    · split at h
      · split at h
        · cases h
          assumption
        · cases h
      · cases h
    · cases h
  · cases h

/-- A successful answer probe always returns a letter of the class
`[a-dA-D]`. -/
theorem ansGo_letter (s : List Char) : ∀ atLS x e,
    ansGo atLS s = some (x, e) → isOptLetter x = true := by
  induction s with
  | nil => intro _ _ _ h; cases h
  | cons c r ih =>
    intro atLS x e h
    unfold ansGo at h
    rcases hA : ansTryAt atLS (c :: r) with _ | p
    · rw [hA] at h
      exact ih _ _ _ h
    · rw [hA] at h
      cases h
      exact ansTryAt_letter _ _ _ _ hA

/-- The slot index of an option letter is below 4. -/
theorem optLetter_idx_lt (x : Char) (h : isOptLetter x = true) :
    x.toLower.toNat - 'a'.toNat < 4 := by
  unfold isOptLetter at h
  simp only [Bool.or_eq_true, beq_iff_eq] at h
  rcases h with ((((((h | h) | h) | h) | h) | h) | h) | h <;> subst h <;> decide

/-- Claim C6: when the answer probe matches, the record's answer is
`"<label>) <trailing text>"` when the (stripped) trailing text is
non-empty, else `"<label>) <slot text>"` when the final option slot of
the label is non-empty, else the bare lowercase label. -/
theorem c6_answer_resolution (b : List Char) (x : Char)
    (extraRaw : List Char) (h : ansGo true b = some (x, extraRaw)) :
    (buildRecord b).answer = pstr (
      if !(pyStrip extraRaw).isEmpty then
        x.toLower :: ')' :: ' ' :: pyStrip extraRaw
      else if !((blockOptions b).getD (x.toLower.toNat - 'a'.toNat) []).isEmpty then
        x.toLower :: ')' :: ' ' ::
          (blockOptions b).getD (x.toLower.toNat - 'a'.toNat) []
      else [x.toLower]) := by
  have hidx : x.toLower.toNat - 'a'.toNat < 4 :=
    optLetter_idx_lt x (ansGo_letter b true x extraRaw h)
  show pstr (ansCompose (ansGo true b) (blockOptions b)) = _
  rw [h]
  simp only [ansCompose, hidx, if_pos]

/-- Witness for C6: block `"Q\nAnswer: b"`, whose answer line carries
only a label and whose slot `b` is empty: the answer is the bare label. -/
theorem c6_witness :
    ansGo true (asL "Q\nAnswer: b") = some ('b', []) ∧
    (buildRecord (asL "Q\nAnswer: b")).answer = pstr [ 'b' ] :=
  ⟨rfl, (c6_answer_resolution (asL "Q\nAnswer: b") 'b' [] rfl).trans rfl⟩

/-! ## Claim C2 (code bug) -/

/-- Claim C2 is contradicted by the code: on the spec's scenario input
the parser returns option `d` with the `Answer:` and `Explanation:` lines
appended (the option capture only stops at a further option marker or the
block end), and, because the `\s*` before the trailing-text group of the
answer probe crosses the newline, the answer is composed from the
following line: `"b) Explanation: Basic arithmetic"` instead of
`"b) 4"`.  This theorem evaluates the parser at the scenario input. -/
theorem c2_scenario_eval :
    parse_plain_mcqs (asL "1. What is 2+2?\na) 3\nb) 4\nc) 5\nd) 6\nAnswer: b\nExplanation: Basic arithmetic") =
      [{ question := pstr (asL "What is 2+2?")
         options := [pstr (asL "3"), pstr (asL "4"), pstr (asL "5"),
           pstr (asL "6\nAnswer: b\nExplanation: Basic arithmetic")]
         answer := pstr (asL "b) Explanation: Basic arithmetic")
         explanation := pstr (asL "Basic arithmetic") }] ∧
    pstr (asL "6\nAnswer: b\nExplanation: Basic arithmetic") ≠ pstr (asL "6") ∧
    pstr (asL "b) Explanation: Basic arithmetic") ≠ pstr (asL "b) 4") := by
  refine ⟨rfl, ?_, ?_⟩ <;> intro h <;> exact absurd (pstr.inj h) (by decide)

/-! ## Claim C3 (code bug) -/

/-- Claim C3 is contradicted by the code: serializing the canonical
record `{question: "What is 2+2?", options: ["3","4","5","6"],
answer: "b) 4", explanation: "Basic arithmetic"}` into the freeform shape
and re-running the parser preserves question, options a-c, answer and
explanation, but returns option `d` as
`"6\nAnswer: b) 4\nExplanation: Basic arithmetic"`: the option capture
only stops at a further option marker or the block end, so the last
option always swallows the `Answer:`/`Explanation:` lines and the
round trip cannot restore the record. -/
theorem c3_roundtrip_eval :
    parse_plain_mcqs (serializeFreeform (asL "What is 2+2?") (asL "3")
        (asL "4") (asL "5") (asL "6") (asL "b) 4") (asL "Basic arithmetic")) =
      [{ question := pstr (asL "What is 2+2?")
         options := [pstr (asL "3"), pstr (asL "4"), pstr (asL "5"),
           pstr (asL "6\nAnswer: b) 4\nExplanation: Basic arithmetic")]
         answer := pstr (asL "b) 4")
         explanation := pstr (asL "Basic arithmetic") }] ∧
    pstr (asL "6\nAnswer: b) 4\nExplanation: Basic arithmetic") ≠ pstr (asL "6") :=
  ⟨rfl, by intro h; exact absurd (pstr.inj h) (by decide)⟩

/-! ## Claim C8 -/

/-- The head of a `dropWhile` result fails the predicate. -/
theorem head_dropWhile_not (p : Char → Bool) (l : List Char) :
    ∀ c, (l.dropWhile p).head? = some c → p c = false := by
  induction l with
  | nil => intro c h; cases h
  | cons a r ih =>
    intro c h
    rw [List.dropWhile_cons] at h
    by_cases hp : p a
    · rw [if_pos hp] at h
      exact ih c h
    · rw [if_neg hp] at h
      cases h
      simpa using hp

/-- `dropWhile` keeps the last element when its result is non-empty. -/
theorem getLast?_dropWhile (p : Char → Bool) (l : List Char)
    (h : l.dropWhile p ≠ []) : (l.dropWhile p).getLast? = l.getLast? := by
  induction l with
  | nil => exact absurd rfl h
  | cons a r ih =>
    rw [List.dropWhile_cons]
    rw [List.dropWhile_cons] at h
    split
    case isTrue hp =>
      rw [if_pos hp] at h
      rcases hr : r with _ | ⟨x, rs⟩
      · rw [hr] at h
        exact absurd rfl h
      · rw [← hr]
        rw [ih (hr ▸ h), hr, List.getLast?_cons_cons]
    case isFalse hp => rfl

/-- A list whose head fails the predicate is unchanged by `dropWhile`. -/
theorem dropWhile_eq_self_of_head (p : Char → Bool) (l : List Char)
    (h : ∀ c, l.head? = some c → p c = false) : l.dropWhile p = l := by
  rcases l with _ | ⟨a, r⟩
  · rfl
  · rw [List.dropWhile_cons, if_neg]
    simp [h a rfl]

/-- A stripped text has no leading whitespace. -/
theorem pyStrip_head (l : List Char) :
    ∀ c, (pyStrip l).head? = some c → isSp c = false := by
  intro c h
  unfold pyStrip at h
  rcases hz : (l.dropWhile isSp).reverse.dropWhile isSp with _ | ⟨x, zs⟩
  · rw [hz] at h
    cases h
  · rw [hz] at h
    rw [← hz] at h
    rw [List.head?_reverse] at h
    rw [getLast?_dropWhile isSp _ (by rw [hz]; simp)] at h
    rw [List.getLast?_reverse] at h
    exact head_dropWhile_not isSp l c h

/-- A stripped text has no trailing whitespace. -/
theorem pyStrip_last (l : List Char) :
    ∀ c, (pyStrip l).getLast? = some c → isSp c = false := by
  intro c h
  unfold pyStrip at h
  rw [List.getLast?_reverse] at h
  exact head_dropWhile_not isSp _ c h

/-- Stripping a text with no leading and no trailing whitespace is the
identity. -/
theorem pyStrip_eq_self (l : List Char)
    (hh : ∀ c, l.head? = some c → isSp c = false)
    (hl : ∀ c, l.getLast? = some c → isSp c = false) : pyStrip l = l := by
  unfold pyStrip
  rw [dropWhile_eq_self_of_head isSp l hh]
  rw [dropWhile_eq_self_of_head isSp l.reverse
    (fun c hc => hl c (by rwa [List.head?_reverse] at hc))]
  exact List.reverse_reverse l

/-- Stripping is idempotent. -/
theorem pyStrip_idem (l : List Char) : pyStrip (pyStrip l) = pyStrip l :=
  pyStrip_eq_self _ (pyStrip_head l) (pyStrip_last l)

/-- On a list of already-stripped non-empty blocks, the per-block loop of
the parser emits exactly one record per block. -/
theorem filterMap_strip_blocks (bs : List (List Char)) :
    ((bs.map pyStrip).filter (fun b => !b.isEmpty)).filterMap
      (fun b => if (pyStrip b).isEmpty then none
        else some (buildRecord (pyStrip b))) =
    ((bs.map pyStrip).filter (fun b => !b.isEmpty)).map buildRecord := by
  induction bs with
  | nil => rfl
  | cons p rest ih =>
    simp only [List.map_cons, List.filter_cons]
    cases he : (!(pyStrip p).isEmpty)
    · simpa [he] using ih
    · simp only [he, if_pos]
      simp only [Bool.not_eq_true'] at he
      have hne : pyStrip p ≠ [] := by
        intro hc
        rw [hc] at he
        simp at he
      simp [List.filterMap_cons, List.map_cons, pyStrip_idem, hne]
      simpa using ih

/-- Claim C8: when the numbered-marker probe matches nowhere in the
normalized text, the parser splits on blank-line paragraphs and each
non-empty trimmed paragraph becomes exactly one record, in order. -/
theorem c8_paragraph_fallback (raw : List Char)
    (h : segmentNumbered (pyStrip (replaceCRLF raw)) = []) :
    parse_plain_mcqs raw =
      (((splitPar (pyStrip (replaceCRLF raw))).map pyStrip).filter
        (fun b => !b.isEmpty)).map buildRecord ∧
    (parse_plain_mcqs raw).length =
      (((splitPar (pyStrip (replaceCRLF raw))).map pyStrip).filter
        (fun b => !b.isEmpty)).length := by
  have main : parse_plain_mcqs raw =
      (((splitPar (pyStrip (replaceCRLF raw))).map pyStrip).filter
        (fun b => !b.isEmpty)).map buildRecord := by
    unfold parse_plain_mcqs
    split
    case isTrue ht =>
      have he : pyStrip (replaceCRLF raw) = [] := by simpa using ht
      rw [he]
      rfl
    case isFalse =>
      unfold blocksOf
      rw [h]
      simp only [List.isEmpty_nil, if_pos]
      exact filterMap_strip_blocks _
  exact ⟨main, by rw [main, List.length_map]⟩

/-- Witness for C8: an input with zero numeric markers and two
blank-line-separated paragraphs yields exactly two records. -/
theorem c8_witness :
    segmentNumbered (pyStrip (replaceCRLF (asL "First fact\n\nsecond fact here"))) = [] ∧
    (parse_plain_mcqs (asL "First fact\n\nsecond fact here")).length = 2 :=
  ⟨rfl, by
    rw [(c8_paragraph_fallback (asL "First fact\n\nsecond fact here") rfl).1]
    rfl⟩

/-! ## Claim C10 -/

/-- The block capture splits its input: capture plus remainder. -/
theorem captureNum_append (s : List Char) : ∀ atLS : Bool,
    (captureNum atLS s).1 ++ (captureNum atLS s).2 = s := by
  induction s with
  | nil => intro _; rfl
  | cons c r ih =>
    intro atLS
    unfold captureNum
    split
    · rfl
    · simp only [List.cons_append, List.cons.injEq, true_and]
      exact ih (c == '\n')

/-- `dropWhile` over an append whose first part wholly satisfies the
predicate. -/
theorem dropWhile_append_all (p : Char → Bool) (u v : List Char)
    (h : ∀ c ∈ u, p c = true) : (u ++ v).dropWhile p = v.dropWhile p := by
  induction u with
  | nil => rfl
  | cons a us ih =>
    rw [List.cons_append, List.dropWhile_cons, if_pos (h a (by simp))]
    exact ih (fun c hc => h c (by simp [hc]))

/-- `takeWhile` over an append whose first part wholly satisfies the
predicate. -/
theorem takeWhile_append_all (p : Char → Bool) (u v : List Char)
    (h : ∀ c ∈ u, p c = true) : (u ++ v).takeWhile p = u ++ v.takeWhile p := by
  induction u with
  | nil => rfl
  | cons a us ih =>
    rw [List.cons_append, List.takeWhile_cons, if_pos (h a (by simp))]
    rw [ih (fun c hc => h c (by simp [hc])), List.cons_append]

/-- Dropping to a character known to be in the list exposes it. -/
theorem dropWhile_ne_mem (l : List Char) (c0 : Char) (h : c0 ∈ l) :
    ∃ l2, l.dropWhile (fun c => c != c0) = c0 :: l2 := by
  induction l with
  | nil => cases h
  | cons a r ih =>
    by_cases ha : a = c0
    · subst ha
      exact ⟨r, by rw [List.dropWhile_cons, if_neg (by simp)]⟩
    · rcases List.mem_cons.mp h with h1 | h1
      · exact absurd h1.symm ha
      · obtain ⟨l2, hl2⟩ := ih h1
        exact ⟨l2, by rw [List.dropWhile_cons, if_pos (by simp [ha]), hl2]⟩

/-- ASCII digits are not whitespace. -/
theorem isDig_not_sp (c : Char) (h : isDig c = true) : isSp c = false := by
  unfold isDig at h
  unfold isSp
  simp only [Bool.and_eq_true, decide_eq_true_eq] at h
  simp only [Bool.or_eq_false_iff, beq_eq_false_iff_ne, ne_eq,
    Bool.and_eq_false_iff, decide_eq_false_iff_not, not_le]
  omega

/-- ASCII digits are not the newline. -/
theorem isDig_ne_nl (c : Char) (h : isDig c = true) : (c != '\n') = true := by
  unfold isDig at h
  simp only [Bool.and_eq_true, decide_eq_true_eq] at h
  simp only [bne_iff_ne, ne_eq]
  intro hc
  subst hc
  have h10 : ('\n').toNat = 10 := rfl
  omega

/-- Decomposition of a successful marker test: whitespace, a non-empty
digit run, a dot, then the returned suffix. -/
theorem markerSplit_decomp (s a : List Char) (h : markerSplit s = some a) :
    ∃ sp dgs, s = sp ++ (dgs ++ '.' :: a) ∧
      (∀ c ∈ sp, isSp c = true) ∧ (∀ c ∈ dgs, isDig c = true) ∧ dgs ≠ [] := by
  unfold markerSplit at h
  split at h
  case isFalse => cases h
  case isTrue hc =>
    cases h
    obtain ⟨h1, h2⟩ := (Bool.and_eq_true _ _).mp hc
    rcases hq : s.dropWhile isSp with _ | ⟨c, r⟩
    · rw [hq] at h1
      cases h1
    · rw [hq] at h1 h2
      have hcdig : isDig c = true := by simpa using h1
      rcases hz : (c :: r).dropWhile isDig with _ | ⟨z0, zs⟩
      · rw [hz] at h2
        cases h2
      · rw [hz] at h2
        have hz0 : z0 = '.' := by simpa using h2
        subst hz0
        refine ⟨s.takeWhile isSp, (c :: r).takeWhile isDig, ?_,
          fun c hc => List.mem_takeWhile_imp hc,
          fun c hc => List.mem_takeWhile_imp hc, ?_⟩
        · conv_lhs => rw [← List.takeWhile_append_dropWhile isSp s]
          rw [hq]
          congr 1
          conv_lhs => rw [← List.takeWhile_append_dropWhile isDig (c :: r)]
          rw [hz]
          rfl
        · rw [List.takeWhile_cons, if_pos hcdig]
          simp

/-- Converse construction of a successful marker test. -/
theorem markerSplit_build (sp dgs a : List Char)
    (hsp : ∀ c ∈ sp, isSp c = true) (hdgs : ∀ c ∈ dgs, isDig c = true)
    (hne : dgs ≠ []) :
    markerSplit (sp ++ (dgs ++ '.' :: a)) = some a := by
  rcases dgs with _ | ⟨d, ds⟩
  · exact absurd rfl hne
  · have hq : (sp ++ ((d :: ds) ++ '.' :: a)).dropWhile isSp =
        (d :: ds) ++ '.' :: a := by
      rw [dropWhile_append_all isSp sp _ hsp]
      rw [List.cons_append, List.dropWhile_cons,
        if_neg (by simp [isDig_not_sp d (hdgs d (by simp))])]
    have hz : ((d :: ds) ++ '.' :: a).dropWhile isDig = '.' :: a := by
      rw [dropWhile_append_all isDig (d :: ds) _ hdgs]
      rw [List.dropWhile_cons, if_neg (by decide)]
    unfold markerSplit
    rw [hq, hz]
    rw [if_pos (by simp [hdgs d (by simp)])]
    rfl

/-- Positional form of `List.mem_takeWhile_imp`. -/
theorem mem_takeWhile_pred (p : Char → Bool) (l : List Char) (c : Char)
    (hc : c ∈ l.takeWhile p) : p c = true :=
  List.mem_takeWhile_imp hc

/-- Contiguous-substring containment composes. -/
theorem subsub (x y s : List Char) (h1 : ∃ u v, u ++ (x ++ v) = y)
    (h2 : ∃ u v, u ++ (y ++ v) = s) : ∃ u v, u ++ (x ++ v) = s := by
  obtain ⟨u1, v1, e1⟩ := h1
  obtain ⟨u2, v2, e2⟩ := h2
  exact ⟨u2 ++ u1, v1 ++ v2, by rw [← e2, ← e1]; simp [List.append_assoc]⟩

/-- A non-marker first line lets the marker test step to the next line:
the whitespace consumed by `\s*` spans the whole (all-whitespace) first
line, so the same match is found from the line after it. -/
theorem markerSplit_step_line (t a : List Char)
    (hm : markerSplit t = some a) (hml : markerLineHead t = false) :
    ∃ r, dropNl t = some r ∧ markerSplit r = some a := by
  obtain ⟨sp, dgs, ht, hsp, hdgs, hne⟩ := markerSplit_decomp t a hm
  by_cases hnl : '\n' ∈ sp
  · obtain ⟨sp2, hsp2⟩ := dropWhile_ne_mem sp '\n' hnl
    have hsp12 : sp.takeWhile (fun c => c != '\n') ++ '\n' :: sp2 = sp := by
      conv_rhs => rw [← List.takeWhile_append_dropWhile (fun c => c != '\n') sp]
      rw [hsp2]
    have hsp1 : ∀ c ∈ sp.takeWhile (fun c => c != '\n'), (c != '\n') = true :=
      fun c hc => mem_takeWhile_pred (fun c => c != '\n') sp c hc
    have hsp2mem : ∀ c ∈ sp2, isSp c = true := by
      intro c hc
      apply hsp
      rw [← hsp12]
      simp [hc]
    refine ⟨sp2 ++ (dgs ++ '.' :: a), ?_, markerSplit_build sp2 dgs a hsp2mem hdgs hne⟩
    have hdw : (sp ++ (dgs ++ '.' :: a)).dropWhile (fun c => c != '\n') =
        '\n' :: (sp2 ++ (dgs ++ '.' :: a)) := by
      conv_lhs => rw [← hsp12]
      rw [List.append_assoc, List.cons_append]
      rw [dropWhile_append_all _ _ _ hsp1]
      rw [List.dropWhile_cons, if_neg (by simp)]
    unfold dropNl
    rw [ht, hdw]
  · exfalso
    have hsp1 : ∀ c ∈ sp, (c != '\n') = true := by
      intro c hc
      simp only [bne_iff_ne, ne_eq]
      intro hceq
      exact hnl (hceq ▸ hc)
    have hdgs1 : ∀ c ∈ dgs, (c != '\n') = true :=
      fun c hc => isDig_ne_nl c (hdgs c hc)
    have hml2 : markerLineHead t = true := by
      unfold markerLineHead
      rw [ht]
      rw [takeWhile_append_all _ sp _ hsp1]
      rw [takeWhile_append_all _ dgs _ hdgs1]
      rw [List.takeWhile_cons, if_pos (by decide)]
      rw [markerSplit_build sp dgs _ hsp hdgs hne]
      rfl
    rw [hml] at hml2
    cases hml2

/-- Stepping past the first newline preserves the line-start suffix
relation. -/
theorem LSsuf_dropNl (p : List Char) : ∀ s t r : List Char,
    p ++ '\n' :: s = t → dropNl t = some r → LSsuf r s := by
  induction p with
  | nil =>
    intro s t r hp hr
    subst hp
    have hstep : dropNl ([] ++ '\n' :: s) = some s := by
      unfold dropNl
      rw [List.nil_append, List.dropWhile_cons, if_neg (by simp)]
    rw [hstep] at hr
    cases hr
    exact Or.inl rfl
  | cons c p2 ih =>
    intro s t r hp hr
    subst hp
    simp only [List.cons_append] at hr
    by_cases hcnl : c = '\n'
    · subst hcnl
      have hstep : dropNl ('\n' :: (p2 ++ '\n' :: s)) = some (p2 ++ '\n' :: s) := by
        unfold dropNl
        rw [List.dropWhile_cons, if_neg (by simp)]
      rw [hstep] at hr
      cases hr
      exact Or.inr ⟨p2, rfl⟩
    · have hstep : dropNl (c :: (p2 ++ '\n' :: s)) = dropNl (p2 ++ '\n' :: s) := by
        unfold dropNl
        rw [List.dropWhile_cons, if_pos (by simp [hcnl])]
      rw [hstep] at hr
      exact ih s _ r rfl hr

/-- `dropNl` yields a suffix. -/
theorem dropNl_suffix (t r : List Char) (h : dropNl t = some r) :
    ∃ q, q ++ r = t := by
  unfold dropNl at h
  rcases hd : t.dropWhile (fun c => c != '\n') with _ | ⟨x, y⟩ <;> rw [hd] at h
  · cases h
  · cases h
    refine ⟨t.takeWhile (fun c => c != '\n') ++ [x], ?_⟩
    conv_rhs => rw [← List.takeWhile_append_dropWhile (fun c => c != '\n') t]
    rw [hd]
    simp

/-- `dtml` yields a suffix of its input. -/
theorem dtmlGo_suffix (fuel : Nat) : ∀ t suf, dtmlGo fuel t = some suf →
    ∃ p, p ++ suf = t := by
  induction fuel with
  | zero => intro t suf h; cases h
  | succ n ih =>
    intro t suf h
    unfold dtmlGo at h
    split at h
    · cases h
      exact ⟨[], rfl⟩
    · rcases hd : dropNl t with _ | r <;> rw [hd] at h
      · cases h
      · obtain ⟨p, hp⟩ := ih r suf h
        obtain ⟨q, hq⟩ := dropNl_suffix t r hd
        exact ⟨q ++ p, by rw [List.append_assoc, hp, hq]⟩

/-- Of two suffixes of the same list, the shorter is a suffix of the
longer. -/
theorem suffix_nested (t a suf : List Char) (ha : ∃ p, p ++ a = t)
    (hs : ∃ q, q ++ suf = t) (hl : a.length ≤ suf.length) :
    ∃ w, w ++ a = suf := by
  obtain ⟨p, hp⟩ := ha
  obtain ⟨q, hq⟩ := hs
  have hlp : q.length ≤ p.length := by
    have e1 : p.length + a.length = t.length := by
      rw [← hp, List.length_append]
    have e2 : q.length + suf.length = t.length := by
      rw [← hq, List.length_append]
    omega
  refine ⟨p.drop q.length, ?_⟩
  have h1 : (p ++ a).drop q.length = (q ++ suf).drop q.length := by rw [hp, hq]
  rw [List.drop_append_of_le_length hlp] at h1
  rw [List.drop_left] at h1
  exact h1

/-- Bridge between the line-walk of `dtml` and the character positions of
the segmentation scanner: a marker match attempted at any line-start
suffix `s` of `t` has its after-dot suffix inside the first-marker-line
suffix of `t` (the matched digit run lies on a marker line, and `dtml`
returns the first such line). -/
theorem dtml_bridge (fuel : Nat) : ∀ t suf s a, dtmlGo fuel t = some suf →
    LSsuf t s → markerSplit s = some a → ∃ w, w ++ a = suf := by
  induction fuel with
  | zero =>
    intro t suf s a h
    cases h
  | succ n ih =>
    intro t suf s a h hls hm
    unfold dtmlGo at h
    split at h
    case isTrue hml =>
      cases h
      obtain ⟨sp, dgs, hs, _, _, _⟩ := markerSplit_decomp s a hm
      rcases hls with h1 | ⟨p, hp⟩
      · refine ⟨sp ++ (dgs ++ ['.']), ?_⟩
        rw [h1, hs]
        simp [List.append_assoc]
      · refine ⟨p ++ '\n' :: (sp ++ (dgs ++ ['.'])), ?_⟩
        rw [← hp, hs]
        simp [List.append_assoc]
    case isFalse hml =>
      rcases hd : dropNl t with _ | r <;> rw [hd] at h
      · cases h
      · rcases hls with h1 | ⟨p, hp⟩
        · subst h1
          obtain ⟨r2, hd2, hm2⟩ := markerSplit_step_line t a hm (by simpa using hml)
          rw [hd] at hd2
          cases hd2
          exact ih r suf r a h (Or.inl rfl) hm2
        · exact ih r suf s a h (LSsuf_dropNl p s t r hp hd) hm

/-- Every block emitted by the segmentation scanner is a contiguous
substring of the scanned suffix. -/
theorem segGo_block_sub (fuel : Nat) : ∀ atLS s b, b ∈ segGo fuel atLS s →
    ∃ u v, u ++ (b ++ v) = s := by
  induction fuel with
  | zero =>
    intro _ _ b hb
    cases hb
  | succ n ih =>
    intro atLS s b hb
    rcases s with _ | ⟨c, r⟩
    · cases hb
    · unfold segGo at hb
      rcases hA : (if atLS then markerSplit (c :: r) else none) with _ | afterDot <;>
        rw [hA] at hb
      · obtain ⟨u, v, huv⟩ := ih (c == '\n') r b hb
        exact ⟨c :: u, v, by rw [List.cons_append, huv]⟩
      · have hm : markerSplit (c :: r) = some afterDot := by
          cases atLS
          · simp at hA
          · simpa using hA
        obtain ⟨sp, dgs, hs, _, _, _⟩ := markerSplit_decomp _ _ hm
        simp only [List.mem_cons] at hb
        have hrest : ∃ u v, u ++ ((captureNum
            ((afterDot.takeWhile isSp).getLast? == some '\n')
            (afterDot.dropWhile isSp)).2 ++ v) = c :: r := by
          refine ⟨sp ++ (dgs ++ '.' :: (afterDot.takeWhile isSp ++ (captureNum
            ((afterDot.takeWhile isSp).getLast? == some '\n')
            (afterDot.dropWhile isSp)).1)), [], ?_⟩
          rw [hs]
          conv_rhs => rw [← List.takeWhile_append_dropWhile isSp afterDot]
          conv_rhs => rw [← captureNum_append (afterDot.dropWhile isSp)
            ((afterDot.takeWhile isSp).getLast? == some '\n')]
          simp [List.append_assoc]
        rcases hb with rfl | hb2
        · refine ⟨sp ++ (dgs ++ '.' :: afterDot.takeWhile isSp), (captureNum
            ((afterDot.takeWhile isSp).getLast? == some '\n')
            (afterDot.dropWhile isSp)).2, ?_⟩
          rw [hs]
          conv_rhs => rw [← List.takeWhile_append_dropWhile isSp afterDot]
          conv_rhs => rw [← captureNum_append (afterDot.dropWhile isSp)
            ((afterDot.takeWhile isSp).getLast? == some '\n')]
          simp [List.append_assoc]
        · exact subsub b _ _ (ih true _ b hb2) hrest

/-- All blocks cut by the scanner from a suffix of `t` lie inside the
first-marker-line suffix of `t`. -/
theorem segGo_after_marker (t suf : List Char) (hd : dtml t = some suf) :
    ∀ fuel s atLS, (∃ p, p ++ s = t) → (atLS = true → LSsuf t s) →
      ∀ b ∈ segGo fuel atLS s, ∃ u v, u ++ (b ++ v) = suf := by
  intro fuel
  induction fuel with
  | zero =>
    intro s atLS _ _ b hb
    cases hb
  | succ n ih =>
    intro s atLS hsub hls b hb
    rcases s with _ | ⟨c, r⟩
    · cases hb
    · unfold segGo at hb
      rcases hA : (if atLS then markerSplit (c :: r) else none) with _ | afterDot <;>
        rw [hA] at hb
      · obtain ⟨p, hp⟩ := hsub
        apply ih r (c == '\n') ⟨p ++ [c], by simpa [List.append_assoc] using hp⟩ ?_ b hb
        intro hc
        have hcn : c = '\n' := by simpa using hc
        subst hcn
        exact Or.inr ⟨p, hp⟩
      · have hatls : atLS = true := by
          cases atLS
          · simp at hA
          · rfl
        have hm : markerSplit (c :: r) = some afterDot := by
          rw [hatls] at hA
          simpa using hA
        obtain ⟨w, hw⟩ := dtml_bridge (t.length + 1) t suf (c :: r) afterDot hd
          (hls hatls) hm
        simp only [List.mem_cons] at hb
        have hsubA : ∃ u v, u ++ (b ++ v) = afterDot := by
          rcases hb with rfl | hb2
          · refine ⟨afterDot.takeWhile isSp, (captureNum
              ((afterDot.takeWhile isSp).getLast? == some '\n')
              (afterDot.dropWhile isSp)).2, ?_⟩
            conv_rhs => rw [← List.takeWhile_append_dropWhile isSp afterDot]
            conv_rhs => rw [← captureNum_append (afterDot.dropWhile isSp)
              ((afterDot.takeWhile isSp).getLast? == some '\n')]
          · refine subsub b _ _ (segGo_block_sub n true _ b hb2)
              ⟨afterDot.takeWhile isSp ++ (captureNum
                ((afterDot.takeWhile isSp).getLast? == some '\n')
                (afterDot.dropWhile isSp)).1, [], ?_⟩
            conv_rhs => rw [← List.takeWhile_append_dropWhile isSp afterDot]
            conv_rhs => rw [← captureNum_append (afterDot.dropWhile isSp)
              ((afterDot.takeWhile isSp).getLast? == some '\n')]
            simp [List.append_assoc]
        exact subsub b afterDot suf hsubA ⟨w, [], by simp [hw]⟩

/-- Claim C10: when the freeform text contains a numbered-question marker
line, the block segmentation discards everything preceding the first such
line: every emitted block is a contiguous substring of the suffix of the
text that starts at the first marker line (so no character before that
line belongs to any block, and the per-block field extraction, which only
reads its block, puts none of them into any record field). -/
theorem c10_prefix_discarded (t suf : List Char) (h : dtml t = some suf) :
    ∀ b ∈ segmentNumbered t, ∃ u v, u ++ (b ++ v) = suf :=
  fun b hb => segGo_after_marker t suf h (t.length + 1) t true ⟨[], rfl⟩
    (fun _ => Or.inl rfl) b hb

/-- Witness for C10: in `"junk\n1. q\n2. r"` the first marker line starts
the suffix `"1. q\n2. r"`, and the first emitted block `"q\n"` indeed
lies inside it. -/
theorem c10_witness :
    dtml (asL "junk\n1. q\n2. r") = some (asL "1. q\n2. r") ∧
    segmentNumbered (asL "junk\n1. q\n2. r") = [asL "q\n", asL "r"] ∧
    (∃ u v, u ++ (asL "q\n" ++ v) = asL "1. q\n2. r") :=
  ⟨rfl, rfl,
    c10_prefix_discarded (asL "junk\n1. q\n2. r") (asL "1. q\n2. r") rfl
      (asL "q\n") (by
        rw [show segmentNumbered (asL "junk\n1. q\n2. r") =
          [asL "q\n", asL "r"] from rfl]
        exact List.mem_cons_self _ _)⟩

/-! ## Claim C9: supporting lemmas

The fallback scan of the code iterates `lines[1:]`.  The claim describes a
line-by-line re-scan of the block.  The two agree on every block: the
skipped first non-empty line's contribution is either empty (a no-op on
the all-empty slot list) or is always overwritten by a later matching
line.  The lemmas below prove this: a non-empty remainder on a matching
first line forces a non-empty capture in the first main-probe match, so
the all-slots-empty trigger condition can only hold if a later probe
match overwrote the slot; and every later probe match sits on a line
after the first one, whose stripped form matches the fallback pattern for
the same slot. -/

/-- Option letters are not whitespace. -/
theorem optLetter_not_sp (c : Char) (h : isOptLetter c = true) :
    isSp c = false := by
  unfold isOptLetter at h
  simp only [Bool.or_eq_true, beq_iff_eq] at h
  rcases h with ((((((h | h) | h) | h) | h) | h) | h) | h <;> subst h <;> decide

/-- Line-break characters are whitespace. -/
theorem isBreak_isSp (c : Char) (h : isBreak c = true) : isSp c = true := by
  unfold isBreak at h
  unfold isSp
  simp only [Bool.or_eq_true, Bool.and_eq_true, decide_eq_true_eq,
    beq_iff_eq] at h ⊢
  omega

/-- Non-whitespace characters are not line breaks. -/
theorem not_sp_not_break (c : Char) (h : isSp c = false) :
    isBreak c = false := by
  cases hb : isBreak c
  · rfl
  · rw [isBreak_isSp c hb] at h
    cases h

/-- The dot and the closing paren are neither whitespace nor breaks. -/
theorem dotParen_not_sp (c : Char) (h : isDotParen c = true) :
    isSp c = false ∧ isBreak c = false := by
  unfold isDotParen at h
  simp only [Bool.or_eq_true, beq_iff_eq] at h
  rcases h with h | h <;> subst h <;> exact ⟨by decide, by decide⟩

/-- The fallback single-line pattern on a line with at least two
characters. -/
theorem flTry_build (x y : Char) (r : List Char) :
    flTry (x :: y :: r) =
      (if isOptLetter x && isDotParen y then
        some (letterIdx x, pyStrip (r.dropWhile isSp)) else none) := rfl

/-- Inversion of a successful fallback single-line match. -/
theorem flTry_inv (ln : List Char) (i : Nat) (R : List Char)
    (h : flTry ln = some (i, R)) :
    ∃ x y r0, ln = x :: y :: r0 ∧ isOptLetter x = true ∧
      isDotParen y = true ∧ i = letterIdx x ∧
      R = pyStrip (r0.dropWhile isSp) := by
  rcases ln with _ | ⟨x, _ | ⟨y, r0⟩⟩
  · cases h
  · cases h
  · rw [flTry_build] at h
    split at h
    case isTrue hg =>
      cases h
      obtain ⟨h1, h2⟩ := (Bool.and_eq_true _ _).mp hg
      exact ⟨x, y, r0, rfl, h1, h2, rfl, rfl⟩
    case isFalse => cases h

/-- `dropWhile` over an append, split on whether the first part is
consumed entirely. -/
theorem dropWhile_append_split (p : Char → Bool) (u v : List Char) :
    (u ++ v).dropWhile p =
      (if (u.dropWhile p).isEmpty then v.dropWhile p
       else u.dropWhile p ++ v) := by
  induction u with
  | nil => simp
  | cons a us ih =>
    rw [List.cons_append, List.dropWhile_cons, List.dropWhile_cons]
    by_cases hp : p a
    · rw [if_pos hp, if_pos hp, ih]
    · rw [if_neg hp, if_neg hp]
      simp

/-- A text that strips to nothing is all whitespace. -/
theorem pyStrip_nil_all (l : List Char) (h : pyStrip l = []) :
    ∀ c ∈ l, isSp c = true := by
  unfold pyStrip at h
  have h2 : (l.dropWhile isSp).reverse.dropWhile isSp = [] := by
    rcases hz : (l.dropWhile isSp).reverse.dropWhile isSp with _ | ⟨z, zs⟩
    · rfl
    · rw [hz] at h
      simp at h
  have h3 : ∀ c ∈ (l.dropWhile isSp).reverse, isSp c = true :=
    List.dropWhile_eq_nil_iff.mp h2
  intro c hc
  rcases (List.mem_append.mp
    (by rw [List.takeWhile_append_dropWhile isSp l]; exact hc :
      c ∈ l.takeWhile isSp ++ l.dropWhile isSp)) with h4 | h4
  · exact List.mem_takeWhile_imp h4
  · exact h3 c (List.mem_reverse.mpr h4)

/-- A text containing a non-whitespace character strips to something. -/
theorem pyStrip_ne_nil_of_mem (l : List Char) (c : Char) (hc : c ∈ l)
    (hs : isSp c = false) : pyStrip l ≠ [] := by
  intro h
  rw [pyStrip_nil_all l h c hc] at hs
  cases hs

/-- Left-strip decomposition: the left-stripped text is the full strip
followed by the all-whitespace tail. -/
theorem strip_left_decomp (l : List Char) :
    ∃ v, l.dropWhile isSp = pyStrip l ++ v ∧ ∀ c ∈ v, isSp c = true := by
  refine ⟨((l.dropWhile isSp).reverse.takeWhile isSp).reverse, ?_, ?_⟩
  · unfold pyStrip
    conv_lhs => rw [← List.reverse_reverse (l.dropWhile isSp)]
    rw [← List.reverse_append]
    rw [List.takeWhile_append_dropWhile isSp]
  · intro c hc
    exact mem_takeWhile_pred isSp _ c (List.mem_reverse.mp hc)

/-- Strip of an all-whitespace-padded two-character core: exactly the
core remains. -/
theorem pyStrip_ws_block (w : List Char) (x d : Char) (t : List Char)
    (hw : ∀ c ∈ w, isSp c = true) (hx : isSp x = false) (hd : isSp d = false)
    (ht : ∀ c ∈ t, isSp c = true) :
    pyStrip (w ++ x :: d :: t) = [x, d] := by
  unfold pyStrip
  rw [dropWhile_append_all isSp w (x :: d :: t) hw]
  rw [List.dropWhile_cons, if_neg (by simp [hx])]
  have h1 : (x :: d :: t).reverse = t.reverse ++ d :: [x] := by simp
  rw [h1, dropWhile_append_all isSp t.reverse (d :: [x])
    (fun c hc => ht c (List.mem_reverse.mp hc))]
  rw [List.dropWhile_cons, if_neg (by simp [hd])]
  simp

/-- The option lookahead fails when the head is not a newline. -/
theorem lookOpt_ne_nl (c : Char) (r : List Char) (h : ¬ c = '\n') :
    lookOpt (c :: r) = false := by
  conv_lhs => unfold lookOpt
  split
  case h_1 r' heq =>
    exact absurd (List.cons.inj heq).1 h
  case h_2 => rfl

/-- The lazy option capture followed by the match-end suffix restores the
scanned text. -/
theorem captureOpt_append (l : List Char) :
    (captureOpt l).1 ++ (captureOpt l).2 = l := by
  induction l with
  | nil => rfl
  | cons c r ih =>
    unfold captureOpt
    by_cases hl : lookOpt (c :: r)
    · rw [if_pos hl]
      rfl
    · rw [if_neg hl]
      simp only [List.cons_append, List.cons.injEq, true_and]
      exact ih

/-- The lazy option capture keeps a non-newline head character. -/
theorem captureOpt_cons (c : Char) (r : List Char) (h : ¬ c = '\n') :
    captureOpt (c :: r) = (c :: (captureOpt r).1, (captureOpt r).2) := by
  conv_lhs => unfold captureOpt
  rw [if_neg (by rw [lookOpt_ne_nl c r h]; simp)]

/-- Equation of `slGo` on the empty text. -/
theorem slGo_nil (acc : List Char) : slGo acc [] = [acc.reverse] := rfl

/-- Equation of `slGo` on a trailing CRLF pair. -/
theorem slGo_crlf_nil (acc : List Char) : slGo acc ['\r', '\n'] = [acc.reverse] := rfl

/-- Equation of `slGo` on a non-trailing CRLF pair. -/
theorem slGo_crlf_cons (acc : List Char) (c : Char) (r : List Char) :
    slGo acc ('\r' :: '\n' :: c :: r) = acc.reverse :: slGo [] (c :: r) := rfl

/-- Equation of `slGo` on a trailing break character. -/
theorem slGo_break_nil (acc : List Char) (c : Char) (hb : isBreak c = true) :
    slGo acc [c] = [acc.reverse] := by
  conv_lhs => unfold slGo
  split
  case h_1 heq => exact List.noConfusion heq
  case h_2 r heq =>
    exact List.noConfusion (List.cons.inj heq).2
  case h_3 d r hnp heq =>
    obtain ⟨h1, h2⟩ := List.cons.inj heq
    subst h1
    cases h2
    rw [if_pos hb]

/-- Equation of `slGo` on a non-trailing break character other than a
CRLF pair. -/
theorem slGo_break_cons (acc : List Char) (c d : Char) (r : List Char)
    (hb : isBreak c = true) (hp : ¬(c = '\r' ∧ d = '\n')) :
    slGo acc (c :: d :: r) = acc.reverse :: slGo [] (d :: r) := by
  conv_lhs => unfold slGo
  split
  case h_1 heq => exact List.noConfusion heq
  case h_2 r' heq =>
    obtain ⟨h1, h2⟩ := List.cons.inj heq
    obtain ⟨h3, _⟩ := List.cons.inj h2
    exact absurd ⟨h1, h3⟩ hp
  case h_3 c' r' hnp heq =>
    obtain ⟨h1, h2⟩ := List.cons.inj heq
    subst h1
    cases h2
    rw [if_pos hb]

/-- Equation of `slGo` on a non-break character. -/
theorem slGo_nb (acc : List Char) (c : Char) (r : List Char)
    (hb : isBreak c = false) : slGo acc (c :: r) = slGo (c :: acc) r := by
  conv_lhs => unfold slGo
  split
  case h_1 heq => exact List.noConfusion heq
  case h_2 r' heq =>
    obtain ⟨h1, _⟩ := List.cons.inj heq
    subst h1
    simp [isBreak] at hb
  case h_3 c' r' hnp heq =>
    obtain ⟨h1, h2⟩ := List.cons.inj heq
    subst h1
    cases h2
    rw [if_neg (by simp [hb])]

/-- The first line produced by `slGo` is the accumulator followed by the
break-free prefix of the text. -/
theorem slGo_first (acc s : List Char) :
    ∃ tl, slGo acc s =
      (acc.reverse ++ s.takeWhile (fun c => !isBreak c)) :: tl := by
  induction acc, s using slGo.induct with
  | case1 acc => exact ⟨[], by simp [slGo_nil]⟩
  | case2 acc r ih =>
    have ht : (('\r' :: '\n' :: r).takeWhile (fun c => !isBreak c)) = [] := by
      rw [List.takeWhile_cons]
      simp [isBreak]
    rcases r with _ | ⟨d, rr⟩
    · exact ⟨[], by rw [slGo_crlf_nil, ht, List.append_nil]⟩
    · exact ⟨slGo [] (d :: rr), by rw [slGo_crlf_cons, ht, List.append_nil]⟩
  | case3 acc c r hnp hb ih =>
    have ht : ((c :: r).takeWhile (fun c => !isBreak c)) = [] := by
      rw [List.takeWhile_cons]
      simp [hb]
    rcases r with _ | ⟨d, rr⟩
    · exact ⟨[], by rw [slGo_break_nil acc c hb, ht, List.append_nil]⟩
    · refine ⟨slGo [] (d :: rr), ?_⟩
      rw [slGo_break_cons acc c d rr hb ?_, ht, List.append_nil]
      intro ⟨hc, hd⟩
      exact hnp rr hc (by rw [hd])
  | case4 acc c r hnp hb ih =>
    obtain ⟨tl, htl⟩ := ih
    refine ⟨tl, ?_⟩
    rw [slGo_nb acc c r (by simpa using hb), htl]
    have ht : ((c :: r).takeWhile (fun c => !isBreak c)) =
        c :: r.takeWhile (fun c => !isBreak c) := by
      rw [List.takeWhile_cons]
      simp [hb]
    rw [ht]
    simp

/-- The first line of a non-empty text's splitlines is its break-free
prefix. -/
theorem lines_first (b : List Char) (hb : b ≠ []) :
    ∃ tl, pySplitlines b = b.takeWhile (fun c => !isBreak c) :: tl := by
  rcases b with _ | ⟨c, r⟩
  · exact absurd rfl hb
  · obtain ⟨tl, htl⟩ := slGo_first [] (c :: r)
    exact ⟨tl, by rw [show pySplitlines (c :: r) = slGo [] (c :: r) from rfl, htl]; rfl⟩

/-- Head of the non-empty-strip filter when the first line strips to a
non-empty text. -/
theorem filterNE_head_ne (a : List Char) (ls : List (List Char))
    (L0 : List Char) (he : pyStrip a ≠ [])
    (h : (((a :: ls).map pyStrip).filter (fun l => !l.isEmpty)).head? =
      some L0) :
    pyStrip a = L0 := by
  rw [List.map_cons, List.filter_cons,
    if_pos (by simp [List.isEmpty_iff, he]), List.head?_cons] at h
  exact Option.some.inj h

/-- Head of the non-empty-strip filter when the first line strips to the
empty text. -/
theorem filterNE_head_empty (a : List Char) (ls : List (List Char))
    (L0 : List Char) (he : pyStrip a = [])
    (h : (((a :: ls).map pyStrip).filter (fun l => !l.isEmpty)).head? =
      some L0) :
    ((ls.map pyStrip).filter (fun l => !l.isEmpty)).head? = some L0 := by
  rw [List.map_cons, List.filter_cons,
    if_neg (by simp [List.isEmpty_iff, he])] at h
  exact h

/-- Left strip skips a leading all-whitespace segment. -/
theorem dropWhile_prefix_skip (u s L0 T : List Char)
    (hu : ∀ c ∈ u, isSp c = true) (h : s.dropWhile isSp = L0 ++ T) :
    (u ++ s).dropWhile isSp = L0 ++ T := by
  rw [dropWhile_append_all isSp u s hu]
  exact h

/-- Left strip of a text whose first segment strips to a non-empty line
begins with that stripped line. -/
theorem dropWhile_strip_head (a s L0 : List Char) (hL : pyStrip a = L0)
    (hne : L0 ≠ []) : ∃ T, (a ++ s).dropWhile isSp = L0 ++ T := by
  obtain ⟨v, hv, _⟩ := strip_left_decomp a
  refine ⟨v ++ s, ?_⟩
  rw [dropWhile_append_split isSp a s, hv, hL]
  rw [if_neg (by simp [List.isEmpty_iff, hne])]
  simp

/-- The first non-empty stripped line of the lines produced by `slGo`
starts the left-stripped scanned text. -/
theorem slGo_firstNE (acc s : List Char) :
    ∀ L0, (((slGo acc s).map pyStrip).filter (fun l => !l.isEmpty)).head? =
        some L0 →
      ∃ T, (acc.reverse ++ s).dropWhile isSp = L0 ++ T := by
  induction acc, s using slGo.induct with
  | case1 acc =>
    intro L0 h
    rw [slGo_nil] at h
    by_cases he : pyStrip acc.reverse = []
    · have h2 := filterNE_head_empty _ _ _ he h
      simp at h2
    · have hL := filterNE_head_ne _ [] _ he h
      rw [List.append_nil]
      obtain ⟨T, hT⟩ := dropWhile_strip_head acc.reverse [] L0 hL (hL ▸ he)
      exact ⟨T, by simpa using hT⟩
  | case2 acc r ih =>
    intro L0 h
    rcases r with _ | ⟨d, rr⟩
    · rw [slGo_crlf_nil] at h
      by_cases he : pyStrip acc.reverse = []
      · have h2 := filterNE_head_empty _ _ _ he h
        simp at h2
      · exact dropWhile_strip_head acc.reverse _ L0
          (filterNE_head_ne _ [] _ he h) ((filterNE_head_ne _ [] _ he h) ▸ he)
    · rw [slGo_crlf_cons] at h
      by_cases he : pyStrip acc.reverse = []
      · obtain ⟨T, hT⟩ := ih L0 (filterNE_head_empty _ _ _ he h)
        refine ⟨T, ?_⟩
        have hall : ∀ c ∈ acc.reverse ++ ['\r', '\n'], isSp c = true := by
          intro c hc
          rcases List.mem_append.mp hc with hc | hc
          · exact pyStrip_nil_all acc.reverse he c hc
          · have : c = '\r' ∨ c = '\n' := by simpa using hc
            rcases this with hc | hc <;> (rw [hc]; decide)
        rw [show acc.reverse ++ '\r' :: '\n' :: d :: rr =
          (acc.reverse ++ ['\r', '\n']) ++ d :: rr by simp]
        exact dropWhile_prefix_skip _ _ L0 T hall (by simpa using hT)
      · exact dropWhile_strip_head acc.reverse _ L0
          (filterNE_head_ne _ _ _ he h) ((filterNE_head_ne _ _ _ he h) ▸ he)
  | case3 acc c r hnp hb ih =>
    intro L0 h
    have hcs : isSp c = true := isBreak_isSp c hb
    rcases r with _ | ⟨d, rr⟩
    · rw [slGo_break_nil acc c hb] at h
      by_cases he : pyStrip acc.reverse = []
      · have h2 := filterNE_head_empty _ _ _ he h
        simp at h2
      · exact dropWhile_strip_head acc.reverse _ L0
          (filterNE_head_ne _ [] _ he h) ((filterNE_head_ne _ [] _ he h) ▸ he)
    · rw [slGo_break_cons acc c d rr hb
        (fun hpair => hnp rr hpair.1 (by rw [hpair.2]))] at h
      by_cases he : pyStrip acc.reverse = []
      · obtain ⟨T, hT⟩ := ih L0 (filterNE_head_empty _ _ _ he h)
        refine ⟨T, ?_⟩
        have hall : ∀ e ∈ acc.reverse ++ [c], isSp e = true := by
          intro e hev
          rcases List.mem_append.mp hev with hev | hev
          · exact pyStrip_nil_all acc.reverse he e hev
          · have : e = c := by simpa using hev
            rw [this]
            exact hcs
        rw [show acc.reverse ++ c :: d :: rr =
          (acc.reverse ++ [c]) ++ d :: rr by simp]
        exact dropWhile_prefix_skip _ _ L0 T hall (by simpa using hT)
      · exact dropWhile_strip_head acc.reverse _ L0
          (filterNE_head_ne _ _ _ he h) ((filterNE_head_ne _ _ _ he h) ▸ he)
  | case4 acc c r hnp hb ih =>
    intro L0 h
    rw [slGo_nb acc c r (by simpa using hb)] at h
    obtain ⟨T, hT⟩ := ih L0 h
    refine ⟨T, ?_⟩
    rw [show acc.reverse ++ c :: r = (c :: acc).reverse ++ r by simp]
    exact hT

/-- The first non-empty stripped line of a block starts the block's
left-stripped text. -/
theorem neLines_head_decomp (b L0 : List Char)
    (h : (neLines b).head? = some L0) :
    ∃ T, b.dropWhile isSp = L0 ++ T := by
  rcases b with _ | ⟨c, r⟩
  · cases h
  · have h2 : (((slGo [] (c :: r)).map pyStrip).filter
        (fun l => !l.isEmpty)).head? = some L0 := h
    obtain ⟨T, hT⟩ := slGo_firstNE [] (c :: r) L0 h2
    exact ⟨T, by simpa using hT⟩

/-- Splitting the line scan at a leading break character. -/
theorem slGo_break_base (acc : List Char) (brk : Char) (B : List Char)
    (hb : isBreak brk = true) (hB : B ≠ [])
    (hr : brk = '\r' → B.head? ≠ some '\n') :
    slGo acc (brk :: B) = slGo acc [brk] ++ slGo [] B := by
  rcases B with _ | ⟨b0, B'⟩
  · exact absurd rfl hB
  · have hnp : ¬(brk = '\r' ∧ b0 = '\n') := by
      intro ⟨h1, h2⟩
      exact hr h1 (by rw [List.head?_cons, h2])
    rw [slGo_break_cons acc brk b0 B' hb hnp, slGo_break_nil acc brk hb]
    rfl

/-- Splitting the line scan at an interior break character. -/
theorem slGo_append_break (n : Nat) : ∀ acc A (brk : Char) (B : List Char),
    A.length ≤ n → isBreak brk = true → B ≠ [] →
    (brk = '\r' → B.head? ≠ some '\n') →
    slGo acc (A ++ brk :: B) = slGo acc (A ++ [brk]) ++ slGo [] B := by
  induction n with
  | zero =>
    intro acc A brk B hlen hb hB hr
    have hA : A = [] := List.eq_nil_of_length_eq_zero (Nat.le_zero.mp hlen)
    subst hA
    simpa using slGo_break_base acc brk B hb hB hr
  | succ n ih =>
    intro acc A brk B hlen hb hB hr
    rcases A with _ | ⟨a, A'⟩
    · simpa using slGo_break_base acc brk B hb hB hr
    rcases A' with _ | ⟨a2, A''⟩
    · by_cases hpair : a = '\r' ∧ brk = '\n'
      · obtain ⟨h1, h2⟩ := hpair
        subst h1
        subst h2
        rcases B with _ | ⟨b0, B'⟩
        · exact absurd rfl hB
        · rw [show ['\r'] ++ '\n' :: b0 :: B' = '\r' :: '\n' :: b0 :: B'
            from rfl]
          rw [slGo_crlf_cons, show ['\r'] ++ ['\n'] = ['\r', '\n'] from rfl,
            slGo_crlf_nil]
          rfl
      · by_cases hab : isBreak a = true
        · rw [show [a] ++ brk :: B = a :: brk :: B from rfl,
            slGo_break_cons acc a brk B hab hpair,
            slGo_break_base [] brk B hb hB hr,
            show [a] ++ [brk] = a :: [brk] from rfl,
            slGo_break_cons acc a brk [] hab hpair]
          rfl
        · rw [show [a] ++ brk :: B = a :: (brk :: B) from rfl,
            slGo_nb acc a _ (by simpa using hab),
            show [a] ++ [brk] = a :: [brk] from rfl,
            slGo_nb acc a _ (by simpa using hab)]
          simpa using slGo_break_base (a :: acc) brk B hb hB hr
    · by_cases hpair : a = '\r' ∧ a2 = '\n'
      · obtain ⟨h1, h2⟩ := hpair
        subst h1
        subst h2
        rcases hE : A'' ++ brk :: B with _ | ⟨e, es⟩
        · exact absurd (List.append_eq_nil.mp hE).2 (by simp)
        rcases hF : A'' ++ [brk] with _ | ⟨f, fs⟩
        · exact absurd (List.append_eq_nil.mp hF).2 (by simp)
        rw [show ('\r' :: '\n' :: A'') ++ brk :: B =
          '\r' :: '\n' :: (A'' ++ brk :: B) from rfl, hE, slGo_crlf_cons,
          ← hE]
        rw [show ('\r' :: '\n' :: A'') ++ [brk] =
          '\r' :: '\n' :: (A'' ++ [brk]) from rfl, hF, slGo_crlf_cons, ← hF]
        rw [ih [] A'' brk B (by simp at hlen; omega) hb hB hr]
        rfl
      · by_cases hab : isBreak a = true
        · rw [show (a :: a2 :: A'') ++ brk :: B =
            a :: (a2 :: (A'' ++ brk :: B)) from rfl,
            slGo_break_cons acc a a2 _ hab hpair,
            show (a :: a2 :: A'') ++ [brk] =
            a :: (a2 :: (A'' ++ [brk])) from rfl,
            slGo_break_cons acc a a2 _ hab hpair]
          rw [show a2 :: (A'' ++ brk :: B) = (a2 :: A'') ++ brk :: B
            from rfl,
            ih [] (a2 :: A'') brk B (by simp at hlen ⊢; omega) hb hB hr]
          rfl
        · rw [show (a :: a2 :: A'') ++ brk :: B =
            a :: ((a2 :: A'') ++ brk :: B) from rfl,
            slGo_nb acc a _ (by simpa using hab),
            show (a :: a2 :: A'') ++ [brk] =
            a :: ((a2 :: A'') ++ [brk]) from rfl,
            slGo_nb acc a _ (by simpa using hab)]
          exact ih (a :: acc) (a2 :: A'') brk B (by simp at hlen ⊢; omega)
            hb hB hr

/-- Splitting `splitlines` at an interior break character. -/
theorem lines_append_split (A : List Char) (brk : Char) (B : List Char)
    (hb : isBreak brk = true) (hB : B ≠ [])
    (hr : brk = '\r' → B.head? ≠ some '\n') :
    pySplitlines (A ++ brk :: B) =
      pySplitlines (A ++ [brk]) ++ pySplitlines B := by
  rcases A with _ | ⟨a, A'⟩
  · rcases B with _ | ⟨b0, B'⟩
    · exact absurd rfl hB
    · simpa using slGo_break_base [] brk (b0 :: B') hb hB hr
  · rcases B with _ | ⟨b0, B'⟩
    · exact absurd rfl hB
    · have h1 : pySplitlines ((a :: A') ++ brk :: b0 :: B') =
          slGo [] ((a :: A') ++ brk :: b0 :: B') := rfl
      have h2 : pySplitlines ((a :: A') ++ [brk]) =
          slGo [] ((a :: A') ++ [brk]) := rfl
      rw [h1, h2, slGo_append_break (a :: A').length [] (a :: A') brk
        (b0 :: B') (Nat.le_refl _) hb hB hr]
      rfl

/-- With no non-empty slot, every slot is the empty text. -/
theorem anySlot_false_mem (ol : List (List Char))
    (h : anySlot ol = false) : ∀ s ∈ ol, s = [] := by
  intro s hs
  have h2 := List.any_eq_false.mp h s hs
  simpa [List.isEmpty_iff] using h2

/-- Indexing an all-empty slot list yields the empty text. -/
theorem getD_all_empty (ol : List (List Char)) (i : Nat)
    (h : ∀ s ∈ ol, s = []) : ol.getD i [] = [] := by
  rcases hlt : ol.getD i [] with _ | ⟨c, cs⟩
  · rfl
  · by_cases hi : i < ol.length
    · have := h (ol.getD i []) (by
        rw [List.getD_eq_getElem?_getD, List.getElem?_eq_getElem hi]
        exact List.getElem_mem hi)
      rw [hlt] at this
      cases this
    · rw [List.getD_eq_getElem?_getD, List.getElem?_eq_none (by omega)] at hlt
      cases hlt

/-- Setting a slot of an all-empty slot list to the empty text is the
identity. -/
theorem set_empty_self (ol : List (List Char)) (i : Nat)
    (h : ∀ s ∈ ol, s = []) : ol.set i [] = ol := by
  induction ol generalizing i with
  | nil => rfl
  | cons a l ih =>
    rcases i with _ | i
    · rw [List.set_cons_zero, h a (by simp)]
    · rw [List.set_cons_succ, ih i (fun s hs => h s (List.mem_cons_of_mem a hs))]

/-- Positional wrapper: reading back a freshly set slot. -/
theorem getD_set_self (l : List (List Char)) (i : Nat) (a : List Char)
    (h : i < l.length) : (l.set i a).getD i [] = a := by
  rw [List.getD_eq_getElem?_getD, List.getElem?_set_self]
  · rfl
  · omega

/-- Positional wrapper: reading another slot after a set. -/
theorem getD_set_ne (l : List (List Char)) (i j : Nat) (a : List Char)
    (h : i ≠ j) : (l.set i a).getD j [] = l.getD j [] := by
  rw [List.getD_eq_getElem?_getD, List.getD_eq_getElem?_getD,
    List.getElem?_set_ne h]

/-- A slot of the main option fold is determined by the last match whose
letter maps to that slot. -/
theorem mainFold_getD (i : Nat) (hi : i < 4) :
    ∀ (ms : List (Nat × Char × List Char)) (acc : List (List Char)),
      acc.length = 4 →
      ((ms.foldl
        (fun acc m =>
          let idx := letterIdx m.2.1
          if idx < 4 then acc.set idx (pyStrip m.2.2) else acc)
        acc).getD i []) =
      ((ms.filter (fun m => letterIdx m.2.1 == i)).getLast?).elim
        (acc.getD i []) (fun m => pyStrip m.2.2) := by
  intro ms
  induction ms with
  | nil => intro acc hacc; rfl
  | cons m ms ih =>
    intro acc hacc
    by_cases hm : letterIdx m.2.1 = i
    · have hfilc : (m :: ms).filter (fun m2 => letterIdx m2.2.1 == i) =
          m :: ms.filter (fun m2 => letterIdx m2.2.1 == i) := by
        rw [List.filter_cons, if_pos (by simp [hm])]
      have hstep : (if letterIdx m.2.1 < 4 then
          acc.set (letterIdx m.2.1) (pyStrip m.2.2) else acc) =
          acc.set i (pyStrip m.2.2) := by
        rw [hm]
        exact if_pos hi
      rw [List.foldl_cons]
      show (List.foldl _ (if letterIdx m.2.1 < 4 then
        acc.set (letterIdx m.2.1) (pyStrip m.2.2) else acc) ms).getD i [] = _
      rw [hfilc, hstep, ih (acc.set i (pyStrip m.2.2))
        (by rw [List.length_set, hacc])]
      rcases hfil : ms.filter (fun m => letterIdx m.2.1 == i) with _ | ⟨q, qs⟩
      · rw [hfil, List.getLast?_nil, Option.elim_none,
          getD_set_self acc i (pyStrip m.2.2) (by omega),
          List.getLast?_singleton, Option.elim_some]
      · rw [hfil, List.getLast?_cons_cons]
        rcases hlast : (q :: qs).getLast? with _ | l
        · exfalso
          have hne : (q :: qs).getLast?.isSome = true :=
            List.getLast?_isSome.mpr (by simp)
          rw [hlast] at hne
          cases hne
        · rfl
    · have hfilc : (m :: ms).filter (fun m2 => letterIdx m2.2.1 == i) =
          ms.filter (fun m2 => letterIdx m2.2.1 == i) := by
        rw [List.filter_cons, if_neg (by simp [hm])]
      have hstep : (if letterIdx m.2.1 < 4 then
          acc.set (letterIdx m.2.1) (pyStrip m.2.2) else acc).getD i [] =
          acc.getD i [] := by
        by_cases hlt : letterIdx m.2.1 < 4
        · rw [if_pos hlt]
          exact getD_set_ne acc (letterIdx m.2.1) i (pyStrip m.2.2) hm
        · rw [if_neg hlt]
      have hlen : (if letterIdx m.2.1 < 4 then
          acc.set (letterIdx m.2.1) (pyStrip m.2.2) else acc).length = 4 := by
        by_cases hlt : letterIdx m.2.1 < 4
        · rw [if_pos hlt, List.length_set, hacc]
        · rw [if_neg hlt]
          exact hacc
      rw [List.foldl_cons]
      show (List.foldl _ (if letterIdx m.2.1 < 4 then
        acc.set (letterIdx m.2.1) (pyStrip m.2.2) else acc) ms).getD i [] = _
      rw [hfilc, ih _ hlen]
      rcases hlast : (ms.filter (fun m2 => letterIdx m2.2.1 == i)).getLast?
        with _ | l
      · simp only [hlast, Option.elim_none]
        exact hstep
      · simp only [hlast, Option.elim_some]

/-- Computation of a successful option attempt at a line-start position. -/
theorem optTryAt_true (s : List Char) (x y : Char) (rest : List Char)
    (hd : s.dropWhile isSp = x :: y :: rest)
    (hg : (isOptLetter x && isDotParen y) = true) :
    optTryAt true s = some (x, (captureOpt (rest.dropWhile isSp)).1,
      (captureOpt (rest.dropWhile isSp)).2) := by
  unfold optTryAt
  rw [if_pos rfl]
  dsimp only
  rw [hd]
  dsimp only
  rw [if_pos hg]

/-- Inversion of a successful option attempt at a line-start position. -/
theorem optTryAt_true_inv (s : List Char) (x : Char) (cap rest : List Char)
    (h : optTryAt true s = some (x, cap, rest)) :
    ∃ y rest1, s.dropWhile isSp = x :: y :: rest1 ∧
      isOptLetter x = true ∧ isDotParen y = true ∧
      cap = (captureOpt (rest1.dropWhile isSp)).1 ∧
      rest = (captureOpt (rest1.dropWhile isSp)).2 := by
  unfold optTryAt at h
  rw [if_pos rfl] at h
  dsimp only at h
  split at h
  case h_1 x0 y0 r1 heq =>
    split at h
    case isTrue hg =>
      have h2 := Option.some.inj h
      injection h2 with h3 h4
      injection h4 with h5 h6
      subst h3
      exact ⟨y0, r1, heq, ((Bool.and_eq_true _ _).mp hg).1,
        ((Bool.and_eq_true _ _).mp hg).2, h5.symm, h6.symm⟩
    case isFalse => exact Option.noConfusion h
  case h_2 => exact Option.noConfusion h

/-- An option attempt not at a line start consumes a leading newline. -/
theorem optTryAt_false_nl (r : List Char) :
    optTryAt false ('\n' :: r) = optTryAt true r := rfl

/-- An option attempt not at a line start consumes a leading carriage
return. -/
theorem optTryAt_false_cr (r : List Char) :
    optTryAt false ('\r' :: r) = optTryAt true r := rfl

/-- An option attempt fails on the empty text off line starts. -/
theorem optTryAt_false_nil : optTryAt false [] = none := rfl

/-- An option attempt off a line start fails without a leading break. -/
theorem optTryAt_false_other (c : Char) (r : List Char) (h1 : ¬ c = '\n')
    (h2 : ¬ c = '\r') : optTryAt false (c :: r) = none := by
  unfold optTryAt
  rw [if_neg (by simp)]
  dsimp only
  split
  · rfl
  case h_2 a b heq =>
    split at heq
    case h_1 r' heq2 =>
      exact absurd (List.cons.inj heq2).1 h1
    case h_2 r' heq2 =>
      exact absurd (List.cons.inj heq2).1 h2
    case h_3 =>
      exact Option.noConfusion heq

/-- The suffix at an option match end lies within the scanned text. -/
theorem optTryAt_rest_suffix (atLS : Bool) (s : List Char) (x : Char)
    (cap rest : List Char) (h : optTryAt atLS s = some (x, cap, rest)) :
    ∃ pre, pre ++ rest = s := by
  have key : ∀ t, optTryAt true t = some (x, cap, rest) →
      ∃ pre, pre ++ rest = t := by
    intro t ht
    obtain ⟨y, rest1, hd, _, _, _, hrest⟩ := optTryAt_true_inv t x cap rest ht
    refine ⟨t.takeWhile isSp ++ x :: y :: (rest1.takeWhile isSp ++
      (captureOpt (rest1.dropWhile isSp)).1), ?_⟩
    rw [hrest]
    have h1 : rest1.takeWhile isSp ++ (captureOpt (rest1.dropWhile isSp)).1 ++
        (captureOpt (rest1.dropWhile isSp)).2 = rest1 := by
      rw [List.append_assoc, captureOpt_append, List.takeWhile_append_dropWhile]
    calc t.takeWhile isSp ++ x :: y :: (rest1.takeWhile isSp ++
          (captureOpt (rest1.dropWhile isSp)).1) ++
          (captureOpt (rest1.dropWhile isSp)).2
        = t.takeWhile isSp ++ x :: y :: (rest1.takeWhile isSp ++
          (captureOpt (rest1.dropWhile isSp)).1 ++
          (captureOpt (rest1.dropWhile isSp)).2) := by simp
      _ = t.takeWhile isSp ++ x :: y :: rest1 := by rw [h1]
      _ = t.takeWhile isSp ++ t.dropWhile isSp := by rw [hd]
      _ = t := List.takeWhile_append_dropWhile isSp t
  cases atLS with
  | true =>
    exact key s h
  | false =>
    rcases s with _ | ⟨c, r⟩
    · rw [optTryAt_false_nil] at h
      exact Option.noConfusion h
    · by_cases hc1 : c = '\n'
      · subst hc1
        rw [optTryAt_false_nl] at h
        obtain ⟨pre, hpre⟩ := key r h
        exact ⟨'\n' :: pre, by rw [← hpre]; rfl⟩
      · by_cases hc2 : c = '\r'
        · subst hc2
          rw [optTryAt_false_cr] at h
          obtain ⟨pre, hpre⟩ := key r h
          exact ⟨'\r' :: pre, by rw [← hpre]; rfl⟩
        · rw [optTryAt_false_other c r hc1 hc2] at h
          exact Option.noConfusion h

/-- The option scanner yields nothing without fuel. -/
theorem optGo_zero (pos : Nat) (atLS : Bool) (s : List Char) :
    optGo 0 pos atLS s = [] := rfl

/-- The option scanner yields nothing on the empty text. -/
theorem optGo_succ_nil (n pos : Nat) (atLS : Bool) :
    optGo (n + 1) pos atLS [] = [] := rfl

/-- Scanner step on a successful attempt. -/
theorem optGo_cons_some (n pos : Nat) (atLS : Bool) (c : Char) (r : List Char)
    (x : Char) (cap rest : List Char)
    (h : optTryAt atLS (c :: r) = some (x, cap, rest)) :
    optGo (n + 1) pos atLS (c :: r) = (pos, x, cap) ::
      optGo n (pos + ((c :: r).length - rest.length)) false rest := by
  conv_lhs => unfold optGo
  rw [h]

/-- Scanner step on a failed attempt. -/
theorem optGo_cons_none (n pos : Nat) (atLS : Bool) (c : Char) (r : List Char)
    (h : optTryAt atLS (c :: r) = none) :
    optGo (n + 1) pos atLS (c :: r) = optGo n (pos + 1) (c == '\n') r := by
  conv_lhs => unfold optGo
  rw [h]

/-- Every match of the option scanner after the initial position sits
right after a newline or carriage return; an initial-position match sits
after leading whitespace only.  In both cases the letter and punctuation
follow a whitespace run and the capture is the lazy capture at the
remainder. -/
theorem optGo_struct (fuel : Nat) : ∀ (pos : Nat) (atLS : Bool)
    (s : List Char) (p : Nat) (x : Char) (cap : List Char),
    (p, x, cap) ∈ optGo fuel pos atLS s →
    (atLS = true ∧ ∃ w y rest1, s = w ++ x :: y :: rest1 ∧
       (∀ c ∈ w, isSp c = true) ∧ isOptLetter x = true ∧
       isDotParen y = true ∧
       cap = (captureOpt (rest1.dropWhile isSp)).1) ∨
    (∃ u brk w y rest1, s = u ++ brk :: (w ++ x :: y :: rest1) ∧
       (brk = '\n' ∨ brk = '\r') ∧ (∀ c ∈ w, isSp c = true) ∧
       isOptLetter x = true ∧ isDotParen y = true ∧
       cap = (captureOpt (rest1.dropWhile isSp)).1) := by
  induction fuel with
  | zero =>
    intro pos atLS s p x cap hmem
    rw [optGo_zero] at hmem
    exact absurd hmem (List.not_mem_nil _)
  | succ n ih =>
    intro pos atLS s p x cap hmem
    rcases s with _ | ⟨c, r⟩
    · rw [optGo_succ_nil] at hmem
      exact absurd hmem (List.not_mem_nil _)
    rcases htry : optTryAt atLS (c :: r) with _ | ⟨x0, cap0, rest0⟩
    · rw [optGo_cons_none n pos atLS c r htry] at hmem
      rcases ih (pos + 1) (c == '\n') r p x cap hmem with
        ⟨hflag, w, y, rest1, hsr, hw, hx, hy, hc⟩ |
        ⟨u, brk, w, y, rest1, hsr, hbrk, hw, hx, hy, hc⟩
      · refine Or.inr ⟨[], '\n', w, y, rest1, ?_, Or.inl rfl, hw, hx, hy, hc⟩
        rw [List.nil_append, ← eq_of_beq hflag, hsr]
      · refine Or.inr ⟨c :: u, brk, w, y, rest1, ?_, hbrk, hw, hx, hy, hc⟩
        rw [hsr]
        rfl
    · rw [optGo_cons_some n pos atLS c r x0 cap0 rest0 htry] at hmem
      rcases List.mem_cons.mp hmem with hmem | hmem
      · injection hmem with hp hrest2
        injection hrest2 with hx0 hcap0
        subst hx0
        subst hcap0
        cases atLS with
        | true =>
          obtain ⟨y, rest1, hd, hx, hy, hcap, _⟩ :=
            optTryAt_true_inv (c :: r) x cap rest0 htry
          refine Or.inl ⟨rfl, (c :: r).takeWhile isSp, y, rest1, ?_,
            (fun e he => mem_takeWhile_pred isSp _ e he), hx, hy, hcap⟩
          rw [← hd, List.takeWhile_append_dropWhile]
        | false =>
          by_cases hc1 : c = '\n'
          · subst hc1
            rw [optTryAt_false_nl] at htry
            obtain ⟨y, rest1, hd, hx, hy, hcap, _⟩ :=
              optTryAt_true_inv r x cap rest0 htry
            refine Or.inr ⟨[], '\n', r.takeWhile isSp, y, rest1, ?_,
              Or.inl rfl, (fun e he => mem_takeWhile_pred isSp _ e he),
              hx, hy, hcap⟩
            rw [List.nil_append, ← hd, List.takeWhile_append_dropWhile]
          · by_cases hc2 : c = '\r'
            · subst hc2
              rw [optTryAt_false_cr] at htry
              obtain ⟨y, rest1, hd, hx, hy, hcap, _⟩ :=
                optTryAt_true_inv r x cap rest0 htry
              refine Or.inr ⟨[], '\r', r.takeWhile isSp, y, rest1, ?_,
                Or.inr rfl, (fun e he => mem_takeWhile_pred isSp _ e he),
                hx, hy, hcap⟩
              rw [List.nil_append, ← hd, List.takeWhile_append_dropWhile]
            · rw [optTryAt_false_other c r hc1 hc2] at htry
              exact Option.noConfusion htry
      · rcases ih (pos + ((c :: r).length - rest0.length)) false rest0 p x
          cap hmem with ⟨hflag, _⟩ |
          ⟨u, brk, w, y, rest1, hsr, hbrk, hw, hx, hy, hc⟩
        · exact absurd hflag (by simp)
        · obtain ⟨pre, hpre⟩ :=
            optTryAt_rest_suffix atLS (c :: r) x0 cap0 rest0 htry
          refine Or.inr ⟨pre ++ u, brk, w, y, rest1, ?_, hbrk, hw, hx, hy, hc⟩
          rw [← hpre, hsr]
          simp

/-- When the left-stripped block starts with an option marker, the first
match of the option probe is at position 0 with that letter, and every
later match sits right after a newline or carriage return. -/
theorem optMatches_decomp (b : List Char) (x y : Char) (rr : List Char)
    (hd : b.dropWhile isSp = x :: y :: rr)
    (hg : (isOptLetter x && isDotParen y) = true) :
    ∃ tl, optMatches b = (0, x, (captureOpt (rr.dropWhile isSp)).1) :: tl ∧
      ∀ p x2 cap2, (p, x2, cap2) ∈ tl →
        ∃ u brk w y2 rest1, b = u ++ brk :: (w ++ x2 :: y2 :: rest1) ∧
          (brk = '\n' ∨ brk = '\r') ∧ (∀ c ∈ w, isSp c = true) ∧
          isOptLetter x2 = true ∧ isDotParen y2 = true ∧
          cap2 = (captureOpt (rest1.dropWhile isSp)).1 := by
  rcases b with _ | ⟨c, r⟩
  · exact absurd hd (by simp)
  · have htry := optTryAt_true (c :: r) x y rr hd hg
    have hm := optGo_cons_some ((c :: r).length) 0 true c r x
      (captureOpt (rr.dropWhile isSp)).1 (captureOpt (rr.dropWhile isSp)).2
      htry
    refine ⟨optGo ((c :: r).length)
      (0 + ((c :: r).length - ((captureOpt (rr.dropWhile isSp)).2).length))
      false ((captureOpt (rr.dropWhile isSp)).2), hm, ?_⟩
    intro p x2 cap2 hmem
    rcases optGo_struct ((c :: r).length)
      (0 + ((c :: r).length - ((captureOpt (rr.dropWhile isSp)).2).length))
      false ((captureOpt (rr.dropWhile isSp)).2) p x2 cap2 hmem with
      ⟨hflag, _⟩ | ⟨u, brk, w, y2, rest1, hr, hbrk, hw, hx2, hy2, hc2⟩
    · exact absurd hflag (by simp)
    · obtain ⟨pre, hpre⟩ := optTryAt_rest_suffix true (c :: r) x
        (captureOpt (rr.dropWhile isSp)).1 (captureOpt (rr.dropWhile isSp)).2
        htry
      refine ⟨pre ++ u, brk, w, y2, rest1, ?_, hbrk, hw, hx2, hy2, hc2⟩
      rw [← hpre, hr]
      simp

/-- An empty stripped lazy capture forces an all-whitespace remainder. -/
theorem capture_strip_empty_ws (rest1 : List Char)
    (h : pyStrip ((captureOpt (rest1.dropWhile isSp)).1) = []) :
    ∀ c ∈ rest1, isSp c = true := by
  rcases hD : rest1.dropWhile isSp with _ | ⟨c0, r0⟩
  · exact List.dropWhile_eq_nil_iff.mp hD
  · have hc0 : isSp c0 = false :=
      head_dropWhile_not isSp rest1 c0 (by rw [hD]; rfl)
    have hc0n : ¬ c0 = '\n' := by
      intro he
      rw [he] at hc0
      exact absurd hc0 (by decide)
    rw [hD, captureOpt_cons c0 r0 hc0n] at h
    exact absurd h (pyStrip_ne_nil_of_mem _ c0 (by simp) hc0)

/-- Re-splitting a break-then-whitespace run at its last break: the
remaining whitespace run is break-free. -/
theorem break_resplit (u : List Char) (brk : Char) (w t : List Char)
    (hbrk : brk = '\n' ∨ brk = '\r') (hw : ∀ c ∈ w, isSp c = true) :
    ∃ A brk2 w2, u ++ brk :: (w ++ t) = A ++ brk2 :: (w2 ++ t) ∧
      isBreak brk2 = true ∧ (∀ c ∈ w2, isSp c = true) ∧
      (∀ c ∈ w2, isBreak c = false) := by
  rcases hdp : w.reverse.dropWhile (fun c => !isBreak c) with _ | ⟨d, ds⟩
  · refine ⟨u, brk, w, rfl, ?_, hw, ?_⟩
    · rcases hbrk with h | h <;> (rw [h]; decide)
    · intro c hc
      have h2 := List.dropWhile_eq_nil_iff.mp hdp c (List.mem_reverse.mpr hc)
      simpa using h2
  · have hwrec : w.reverse =
        w.reverse.takeWhile (fun c => !isBreak c) ++ d :: ds := by
      rw [← hdp, List.takeWhile_append_dropWhile]
    have hw2 : w = ds.reverse ++ d ::
        (w.reverse.takeWhile (fun c => !isBreak c)).reverse := by
      have h3 := congrArg List.reverse hwrec
      rw [List.reverse_reverse] at h3
      conv_lhs => rw [h3]
      simp
    have hd : isBreak d = true := by
      have h4 := head_dropWhile_not (fun c => !isBreak c) w.reverse d
        (by rw [hdp]; rfl)
      simpa using h4
    refine ⟨u ++ brk :: ds.reverse, d,
      (w.reverse.takeWhile (fun c => !isBreak c)).reverse, ?_, hd, ?_, ?_⟩
    · conv_lhs => rw [hw2]
      simp
    · intro c hc
      have h1 : c ∈ w.reverse.takeWhile (fun c => !isBreak c) :=
        List.mem_reverse.mp hc
      have h2 : c ∈ w.reverse := by
        rw [hwrec]
        exact List.mem_append.mpr (Or.inl h1)
      exact hw c (List.mem_reverse.mp h2)
    · intro c hc
      have h1 := mem_takeWhile_pred (fun c => !isBreak c) w.reverse c
        (List.mem_reverse.mp hc)
      simpa using h1

/-- When the fallback scan triggers although the block's first non-empty
stripped line is an option-marker line with a non-empty remainder, a
later non-empty stripped line is a bare option-marker line for the same
slot.  The main probe's first match is at that first line with a
non-empty capture, so the all-empty trigger forces a later match on the
same slot with an all-whitespace remainder, whose line strips to exactly
the letter and the punctuation mark. -/
theorem fallback_writer_exists (b : List Char) (x y : Char) (r0 : List Char)
    (hhead : (neLines b).head? = some (x :: y :: r0))
    (hg : (isOptLetter x && isDotParen y) = true)
    (hR : pyStrip (r0.dropWhile isSp) ≠ [])
    (hany : anySlot (mainOptionSlots b) = false) :
    ∃ ln ∈ (neLines b).tail, flTry ln = some (letterIdx x, []) := by
  have hx : isOptLetter x = true := ((Bool.and_eq_true _ _).mp hg).1
  have hi : letterIdx x < 4 := optLetter_idx_lt x hx
  obtain ⟨T, hT⟩ := neLines_head_decomp b (x :: y :: r0) hhead
  have hT2 : b.dropWhile isSp = x :: y :: (r0 ++ T) := by
    rw [hT]
    rfl
  obtain ⟨tl, hms, htail⟩ := optMatches_decomp b x y (r0 ++ T) hT2 hg
  have hr0ne : r0.dropWhile isSp ≠ [] := by
    intro hnil
    exact hR (by rw [hnil]; rfl)
  rcases hq : r0.dropWhile isSp with _ | ⟨c0, r0x⟩
  · exact absurd hq hr0ne
  have hc0 : isSp c0 = false := head_dropWhile_not isSp r0 c0 (by rw [hq]; rfl)
  have hc0n : ¬ c0 = '\n' := by
    intro he
    rw [he] at hc0
    exact absurd hc0 (by decide)
  have hD : (r0 ++ T).dropWhile isSp = c0 :: (r0x ++ T) := by
    rw [dropWhile_append_split isSp r0 T, hq]
    rw [if_neg (by simp)]
    rfl
  have hcap : (captureOpt ((r0 ++ T).dropWhile isSp)).1 =
      c0 :: (captureOpt (r0x ++ T)).1 := by
    rw [hD, captureOpt_cons c0 (r0x ++ T) hc0n]
  have hcapne : pyStrip ((captureOpt ((r0 ++ T).dropWhile isSp)).1) ≠ [] :=
    pyStrip_ne_nil_of_mem _ c0 (by rw [hcap]; simp) hc0
  have hgd := mainFold_getD (letterIdx x) hi (optMatches b)
    (List.replicate 4 []) (by simp)
  have hslot : ((optMatches b).foldl
      (fun acc m =>
        let idx := letterIdx m.2.1
        if idx < 4 then acc.set idx (pyStrip m.2.2) else acc)
      (List.replicate 4 [])).getD (letterIdx x) [] = [] := by
    have hdef : mainOptionSlots b = (optMatches b).foldl
        (fun acc m =>
          let idx := letterIdx m.2.1
          if idx < 4 then acc.set idx (pyStrip m.2.2) else acc)
        (List.replicate 4 []) := rfl
    rw [← hdef]
    exact getD_all_empty _ (letterIdx x) (anySlot_false_mem _ hany)
  rw [hgd, hms, List.filter_cons, if_pos (by simp)] at hslot
  rcases hfil : tl.filter
      (fun m => letterIdx m.2.1 == letterIdx x) with _ | ⟨q, qs⟩
  · rw [hfil, List.getLast?_singleton, Option.elim_some] at hslot
    exact absurd hslot hcapne
  rw [hfil, List.getLast?_cons_cons] at hslot
  rcases hlast : (q :: qs).getLast? with _ | mL
  · exfalso
    have hne : (q :: qs).getLast?.isSome = true :=
      List.getLast?_isSome.mpr (by simp)
    rw [hlast] at hne
    cases hne
  rw [hlast, Option.elim_some] at hslot
  have hmem2 : mL ∈ tl.filter (fun m => letterIdx m.2.1 == letterIdx x) := by
    rw [hfil]
    exact List.mem_of_mem_getLast? hlast
  obtain ⟨hmtl, hmidx⟩ := List.mem_filter.mp hmem2
  rcases mL with ⟨p2, x2, cap2⟩
  obtain ⟨u, brk, w, y2, rest1, hb, hbrk, hw, hx2, hy2, hc2⟩ :=
    htail p2 x2 cap2 hmtl
  have hidx2 : letterIdx x2 = letterIdx x := by simpa using hmidx
  have hws1 : ∀ c ∈ rest1, isSp c = true := by
    apply capture_strip_empty_ws rest1
    rw [← hc2]
    exact hslot
  obtain ⟨A, brk2, w2, heq, hbrk2, hw2s, hw2b⟩ :=
    break_resplit u brk w (x2 :: y2 :: rest1) hbrk hw
  have hbeq : b = A ++ brk2 :: (w2 ++ x2 :: y2 :: rest1) := by
    rw [hb, heq]
  have hx2s : isSp x2 = false := optLetter_not_sp x2 hx2
  have hx2b : isBreak x2 = false := not_sp_not_break x2 hx2s
  have hy2s : isSp y2 = false := (dotParen_not_sp y2 hy2).1
  have hy2b : isBreak y2 = false := (dotParen_not_sp y2 hy2).2
  have hBne : w2 ++ x2 :: y2 :: rest1 ≠ [] := by
    rcases w2 <;> simp
  have hhead2 : brk2 = '\r' →
      (w2 ++ x2 :: y2 :: rest1).head? ≠ some '\n' := by
    intro _ hh
    rcases w2 with _ | ⟨h0, w2t⟩
    · rw [List.nil_append, List.head?_cons] at hh
      have hxn := Option.some.inj hh
      rw [hxn] at hx2
      exact absurd hx2 (by decide)
    · rw [List.cons_append, List.head?_cons] at hh
      have h0n := Option.some.inj hh
      have := hw2b h0 (by simp)
      rw [h0n] at this
      exact absurd this (by decide)
  have hsplit : pySplitlines b =
      pySplitlines (A ++ [brk2]) ++ pySplitlines (w2 ++ x2 :: y2 :: rest1) := by
    rw [hbeq]
    exact lines_append_split A brk2 (w2 ++ x2 :: y2 :: rest1) hbrk2 hBne hhead2
  obtain ⟨tl2, htl2⟩ := lines_first (w2 ++ x2 :: y2 :: rest1) hBne
  have htake : (w2 ++ x2 :: y2 :: rest1).takeWhile (fun c => !isBreak c) =
      w2 ++ x2 :: y2 :: rest1.takeWhile (fun c => !isBreak c) := by
    rw [takeWhile_append_all (fun c => !isBreak c) w2 _
      (fun c hc => by simp [hw2b c hc])]
    rw [List.takeWhile_cons, if_pos (by simp [hx2b]), List.takeWhile_cons,
      if_pos (by simp [hy2b])]
  have hstrip : pyStrip ((w2 ++ x2 :: y2 :: rest1).takeWhile
      (fun c => !isBreak c)) = [x2, y2] := by
    rw [htake]
    apply pyStrip_ws_block w2 x2 y2 _ hw2s hx2s hy2s
    intro c hc
    have hcr : c ∈ rest1 := by
      have hpref := List.takeWhile_append_dropWhile (fun c => !isBreak c) rest1
      rw [← hpref]
      exact List.mem_append.mpr (Or.inl hc)
    exact hws1 c hcr
  have hlnmem : (w2 ++ x2 :: y2 :: rest1).takeWhile (fun c => !isBreak c) ∈
      pySplitlines b := by
    rw [hsplit, htl2]
    exact List.mem_append.mpr (Or.inr (List.mem_cons_self _ _))
  have hnemem : ([x2, y2] : List Char) ∈ neLines b := by
    unfold neLines
    apply List.mem_filter.mpr
    constructor
    · rw [← hstrip]
      exact List.mem_map_of_mem pyStrip hlnmem
    · simp
  have hneq : ([x2, y2] : List Char) ≠ x :: y :: r0 := by
    intro heqq
    have h2 := (List.cons.inj heqq).2
    have h3 := (List.cons.inj h2).2
    rw [← h3] at hR
    exact hR rfl
  have hcons : neLines b = (x :: y :: r0) :: (neLines b).tail := by
    rcases hnl : neLines b with _ | ⟨hd0, tl0⟩
    · rw [hnl] at hhead
      cases hhead
    · rw [hnl] at hhead
      rw [List.head?_cons] at hhead
      rw [Option.some.inj hhead]
      rfl
  have htailmem : ([x2, y2] : List Char) ∈ (neLines b).tail := by
    have h4 : ([x2, y2] : List Char) ∈ (x :: y :: r0) :: (neLines b).tail := by
      rw [← hcons]
      exact hnemem
    rcases List.mem_cons.mp h4 with h5 | h5
    · exact absurd h5 hneq
    · exact h5
  refine ⟨[x2, y2], htailmem, ?_⟩
  rw [flTry_build x2 y2 [], if_pos (by rw [hx2, hy2]; rfl)]
  rw [hidx2]
  rfl

/-- Fallback fold step on a line matching a valid slot. -/
theorem fallbackApply_cons_some (ln : List Char) (ls : List (List Char))
    (ol : List (List Char)) (i : Nat) (v : List Char)
    (h : flTry ln = some (i, v)) (hi : i < 4) :
    fallbackApply (ln :: ls) ol = fallbackApply ls (ol.set i v) := by
  unfold fallbackApply
  rw [List.foldl_cons, h]
  dsimp only
  rw [if_pos hi]

/-- Fallback fold step on a line matching an out-of-range slot. -/
theorem fallbackApply_cons_some_ge (ln : List Char) (ls : List (List Char))
    (ol : List (List Char)) (i : Nat) (v : List Char)
    (h : flTry ln = some (i, v)) (hi : ¬ i < 4) :
    fallbackApply (ln :: ls) ol = fallbackApply ls ol := by
  unfold fallbackApply
  rw [List.foldl_cons, h]
  dsimp only
  rw [if_neg hi]

/-- Fallback fold step on a non-matching line. -/
theorem fallbackApply_cons_none (ln : List Char) (ls : List (List Char))
    (ol : List (List Char)) (h : flTry ln = none) :
    fallbackApply (ln :: ls) ol = fallbackApply ls ol := by
  unfold fallbackApply
  rw [List.foldl_cons, h]

/-- A slot write before the fallback fold is immaterial when some later
line of the fold writes the same slot. -/
theorem fallbackApply_set_irrel (lines : List (List Char)) :
    ∀ (ol : List (List Char)) (i : Nat) (R : List Char), i < 4 →
    (∃ ln ∈ lines, ∃ v, flTry ln = some (i, v)) →
    fallbackApply lines (ol.set i R) = fallbackApply lines ol := by
  induction lines with
  | nil =>
    rintro ol i R hi ⟨ln, hmem, _⟩
    exact absurd hmem (List.not_mem_nil _)
  | cons ln ls ih =>
    rintro ol i R hi ⟨ln0, hmem, v0, hv0⟩
    rcases hfl : flTry ln with _ | ⟨j, v⟩
    · rw [fallbackApply_cons_none ln ls _ hfl,
        fallbackApply_cons_none ln ls _ hfl]
      have hln0 : ln0 ∈ ls := by
        rcases List.mem_cons.mp hmem with h5 | h5
        · rw [h5, hfl] at hv0
          exact Option.noConfusion hv0
        · exact h5
      exact ih ol i R hi ⟨ln0, hln0, v0, hv0⟩
    · by_cases hj4 : j < 4
      · rw [fallbackApply_cons_some ln ls _ j v hfl hj4,
          fallbackApply_cons_some ln ls _ j v hfl hj4]
        by_cases hij : j = i
        · subst hij
          rw [List.set_set R v ol j]
        · rw [List.set_comm R v ol (fun he => hij he.symm)]
          have hln0 : ln0 ∈ ls := by
            rcases List.mem_cons.mp hmem with h5 | h5
            · rw [h5, hfl] at hv0
              have h6 := (Prod.mk.inj (Option.some.inj hv0)).1
              exact absurd h6 hij
            · exact h5
          exact ih (ol.set j v) i R hi ⟨ln0, hln0, v0, hv0⟩
      · rw [fallbackApply_cons_some_ge ln ls _ j v hfl hj4,
          fallbackApply_cons_some_ge ln ls _ j v hfl hj4]
        have hln0 : ln0 ∈ ls := by
          rcases List.mem_cons.mp hmem with h5 | h5
          · rw [h5, hfl] at hv0
            have h6 := (Prod.mk.inj (Option.some.inj hv0)).1
            rw [h6] at hj4
            exact absurd hi hj4
          · exact h5
        exact ih ol i R hi ⟨ln0, hln0, v0, hv0⟩

/-- When the fallback triggers, scanning all non-empty stripped lines
gives the same slots as scanning the lines after the first. -/
theorem fallback_lines_eq_tail (b : List Char)
    (hany : anySlot (mainOptionSlots b) = false) :
    fallbackApply (neLines b) (mainOptionSlots b) =
      fallbackApply (neLines b).tail (mainOptionSlots b) := by
  rcases hnl : neLines b with _ | ⟨L0, rest⟩
  · rfl
  · rw [List.tail_cons]
    rcases hfl : flTry L0 with _ | ⟨i, R⟩
    · rw [fallbackApply_cons_none L0 rest _ hfl]
    · by_cases hi4 : i < 4
      · rcases hRc : R with _ | ⟨c1, R1⟩
        · subst hRc
          rw [fallbackApply_cons_some L0 rest _ i [] hfl hi4,
            set_empty_self _ i (anySlot_false_mem _ hany)]
        · obtain ⟨x, y, r0, hL0, hx, hy, hieq, hReq⟩ :=
            flTry_inv L0 i R hfl
          have hhead : (neLines b).head? = some (x :: y :: r0) := by
            rw [hnl, ← hL0, List.head?_cons]
          have hRne : pyStrip (r0.dropWhile isSp) ≠ [] := by
            rw [← hReq, hRc]
            simp
          obtain ⟨ln, hlnmem, hlnfl⟩ := fallback_writer_exists b x y r0
            hhead (by rw [hx, hy]; rfl) hRne hany
          rw [fallbackApply_cons_some L0 rest _ i R hfl hi4]
          have hlnmem2 : ln ∈ rest := by
            have h7 : (neLines b).tail = rest := by rw [hnl]; rfl
            rw [← h7]
            exact hlnmem
          exact fallbackApply_set_irrel rest (mainOptionSlots b) i R hi4
            ⟨ln, hlnmem2, [], by rw [hlnfl, hieq]⟩
      · rw [fallbackApply_cons_some_ge L0 rest _ i R hfl hi4]

/-- Claim C9: the fallback single-line option scan runs if and only if
the main option probe yielded zero non-empty option slots (when some
slot is non-empty the options are exactly the main probe's slots; when
all are empty they are the result of the fallback scan), the fallback
re-scans the block line by line (the block's final options equal the
fold of the single-line test over all non-empty stripped lines of the
block: the code's skip of the first such line is immaterial, because a
first-line match with a non-empty remainder forces a non-empty slot in
the main probe unless a later bare marker line rewrites the same slot),
and every line matching "leading letter a-d, dot or closing paren, rest
of line" contributes exactly that line's stripped remainder to the slot
of its letter, with no multi-line capture. -/
theorem c9_fallback_line_scan (b : List Char) :
    (anySlot (mainOptionSlots b) = true →
      blockOptions b = mainOptionSlots b) ∧
    (anySlot (mainOptionSlots b) = false →
      blockOptions b = fallbackApply (neLines b) (mainOptionSlots b)) ∧
    (∀ x y r, flTry (x :: y :: r) =
      (if isOptLetter x && isDotParen y then
        some (letterIdx x, pyStrip (r.dropWhile isSp)) else none)) := by
  refine ⟨?_, ?_, fun x y r => flTry_build x y r⟩
  · intro h
    unfold blockOptions
    rw [if_pos h]
  · intro h
    unfold blockOptions
    rw [if_neg (by simp [h])]
    exact (fallback_lines_eq_tail b h).symm

/-- Witness for Claim C9 at the block "Q\na)": the main probe's slots
are all empty there, and the block's options equal the fallback scan
over all non-empty stripped lines. -/
theorem c9_fallback_witness :
    blockOptions (asL "Q\na)") =
      fallbackApply (neLines (asL "Q\na)"))
        (mainOptionSlots (asL "Q\na)")) :=
  (c9_fallback_line_scan (asL "Q\na)")).2.1 rfl
